import Mathlib

/-!
# PigletVM command-line tool: assembler, disassembler and runner

A shallow embedding of `pigletvm-stack-exec.c`.

Conventions of the embedding.

* A C `char` / `uint8_t` is a natural number (its byte value).  A C string is the
  list of its bytes before the terminating NUL.
* `uint8_t *bytecode` on the assembling side is a pointer the code stores through
  without knowing the size of the object: it is a map from offsets to bytes.  The
  size of the allocation (`MAX_CODE_LEN`) appears where the source has it, in
  `compile_file`.
* `exit(EXIT_FAILURE)` is the result `none`.
* On the disassembling side the buffer is the list of bytes `read_file` returns; a
  read outside it, or an index outside `opcode_to_disinfo`, has no defined
  behaviour in C and is the status `undefined`.  Every access is logged so that
  statements about what is read can be made.
-/

namespace PigletVM

/-! ## Library functions used by the source -/

/-- The bytes of a string literal. -/
def cstr (s : String) : List Nat := s.toList.map Char.toNat

/-- The function `isspace` in the C locale: space, `\t`, `\n`, `\v`, `\f`, `\r`. -/
def isspace (c : Nat) : Bool := c == 32 || (9 ≤ c && c ≤ 13)

/-- The function `isdigit`. -/
def isdigit (c : Nat) : Bool := 48 ≤ c && c ≤ 57

/-- The function `tolower` in the C locale. -/
def tolower (c : Nat) : Nat := if 65 ≤ c ∧ c ≤ 90 then c + 32 else c

/-- The function `strcasecmp`: the difference of the first pair of bytes that differ after
`tolower`, the end of a string counting as the byte 0. -/
def strcasecmp : List Nat → List Nat → Int
  | [], [] => 0
  | [], c :: _ => 0 - (tolower c : Int)
  | c :: _, [] => (tolower c : Int) - 0
  | a :: s1, b :: s2 =>
    if tolower a = tolower b then strcasecmp s1 s2
    else (tolower a : Int) - (tolower b : Int)

/-- The call `strtok_r(s, " ", &saveptr)`: skip leading spaces; no token if the string ends
there; otherwise the token is the run of bytes up to the next space, and
`saveptr` is what follows that space.  The same function describes the calls
`strtok_r(NULL, " ", &saveptr)`, applied to the saved rest. -/
def strtok_r (s : List Nat) : Option (List Nat × List Nat) :=
  match s.dropWhile (fun c => c == 32) with
  | [] => none
  | c :: t =>
    some ((c :: t).takeWhile (fun c => c != 32),
          ((c :: t).dropWhile (fun c => c != 32)).drop 1)

/-- Value of a digit character (decimal digits and hexadecimal letters). -/
def digit_value (c : Nat) : Option Nat :=
  if 48 ≤ c ∧ c ≤ 57 then some (c - 48)
  else if 97 ≤ c ∧ c ≤ 102 then some (c - 87)
  else if 65 ≤ c ∧ c ≤ 70 then some (c - 55)
  else none

/-- Reads the longest run of digits of the given base; returns the accumulated
value and the number of digits read. -/
def scan_digits (base : Nat) : List Nat → Nat → Nat → Nat × Nat
  | [], acc, n => (acc, n)
  | c :: cs, acc, n =>
    match digit_value c with
    | some d => if d < base then scan_digits base cs (acc * base + d) (n + 1) else (acc, n)
    | none => (acc, n)

/-- The magnitude read by the `%i` conversion: `0x`/`0X` introduces hexadecimal
digits, another leading `0` octal digits, anything else decimal digits.  At least
one digit is required (the leading `0` of an octal number is one); `0x` without a
hexadecimal digit is a matching failure, as in ISO C. -/
def scan_unsigned : List Nat → Option Nat
  | [] => none
  | c :: r =>
    if c = 48 then
      match r with
      | [] => some 0
      | x :: r2 =>
        if x = 120 ∨ x = 88 then
          (if (scan_digits 16 r2 0 0).2 = 0 then none else some (scan_digits 16 r2 0 0).1)
        else some (scan_digits 8 r 0 0).1
    else
      (if (scan_digits 10 (c :: r) 0 0).2 = 0 then none else some (scan_digits 10 (c :: r) 0 0).1)

/-- Largest `long`. -/
def LONG_MAX : Int := 9223372036854775807

/-- Smallest `long`. -/
def LONG_MIN : Int := -9223372036854775808

/-- The number `strtol` returns for a mathematical value: out-of-range values are
clamped. -/
def strtol_clamp (v : Int) : Int := max LONG_MIN (min LONG_MAX v)

/-- Conversion of an integer to `int8_t` (keeps the low 8 bits). -/
def to_int8 (v : Int) : Int := (v + 128) % 256 - 128

/-- Conversion of an integer to `uint8_t`. -/
def to_uint8 (v : Int) : Nat := (v % 256).toNat

/-- The call `sscanf(arg, "%" SCNi8, &arg_val)`: `some v` when the call returns 1 and stores
`v`; `none` when it returns 0 or `EOF`.  Leading white space is skipped, one sign
is accepted, the number is read as by `strtol` with base 0, and the result is
stored in an `int8_t`. -/
def sscanf_SCNi8 (arg : List Nat) : Option Int :=
  match arg.dropWhile isspace with
  | [] => none
  | c :: r =>
    if c = 45 then (scan_unsigned r).map (fun (m : Nat) => to_int8 (strtol_clamp (-(m : Int))))
    else if c = 43 then (scan_unsigned r).map (fun (m : Nat) => to_int8 (strtol_clamp (m : Int)))
    else (scan_unsigned (c :: r)).map (fun (m : Nat) => to_int8 (strtol_clamp (m : Int)))

/-- The output of `printf("%d", v)` for a non-negative `v`: its decimal digits. -/
def print_d (v : Nat) : List Nat := (Nat.toDigits 10 v).map Char.toNat

/-- The scan of `strlen` from offset `i` on, over the bytes the object still has:
the offset of the first NUL, `none` when the object holds none (the scan leaves
the object). -/
def strlen_from (s : Nat → Nat) : Nat → Nat → Option Nat
  | 0, _ => none
  | fuel + 1, i => if s i = 0 then some i else strlen_from s fuel (i + 1)

/-- The function `strlen` on an object of `size` bytes. -/
def strlen (s : Nat → Nat) (size : Nat) : Option Nat := strlen_from s size 0

/-! ## Constants and tables -/

/-- The constant `#define MAX_CODE_LEN 4096`. -/
def MAX_CODE_LEN : Nat := 4096

/-- The constant `#define MAX_LINE_LEN 256`. -/
def MAX_LINE_LEN : Nat := 256

/-- The exit status `EXIT_SUCCESS`. -/
def EXIT_SUCCESS : Nat := 0

/-- The exit status `EXIT_FAILURE`. -/
def EXIT_FAILURE : Nat := 1

/-- Modelled from the spec: the enumeration `interpret_result` of the header
`pigletvm-stack.h`, which is not among the sources; the spec lists the outcomes
`SUCCESS`, `ERROR_DIVISION_BY_ZERO`, `ERROR_UNKNOWN_OPCODE`, `ERROR_END_OF_STREAM`. -/
inductive interpret_result
  | SUCCESS
  | ERROR_DIVISION_BY_ZERO
  | ERROR_UNKNOWN_OPCODE
  | ERROR_END_OF_STREAM
  deriving DecidableEq, Repr

/-- The table `static char *error_to_msg[]`. -/
def error_to_msg : interpret_result → List Nat
  | .SUCCESS => cstr "success"
  | .ERROR_DIVISION_BY_ZERO => cstr "division by zero"
  | .ERROR_UNKNOWN_OPCODE => cstr "unknown opcode"
  | .ERROR_END_OF_STREAM => cstr "end of stream"

/-- Modelled from the spec: the opcode enumeration of the header
`pigletvm-stack.h`, which is not among the sources.  The spec gives the closed set
`ABORT, PUSHI, ADD, SUB, DIV, MUL, POP_RES, DONE` with values that are 0-based and
dense, `ABORT` being 0. -/
def OP_ABORT : Nat := 0

/-- Modelled from the spec: see `OP_ABORT`. -/
def OP_PUSHI : Nat := 1

/-- Modelled from the spec: see `OP_ABORT`. -/
def OP_ADD : Nat := 2

/-- Modelled from the spec: see `OP_ABORT`. -/
def OP_SUB : Nat := 3

/-- Modelled from the spec: see `OP_ABORT`. -/
def OP_DIV : Nat := 4

/-- Modelled from the spec: see `OP_ABORT`. -/
def OP_MUL : Nat := 5

/-- Modelled from the spec: see `OP_ABORT`. -/
def OP_POP_RES : Nat := 6

/-- Modelled from the spec: see `OP_ABORT`. -/
def OP_DONE : Nat := 7

/-- Modelled from the spec: see `OP_ABORT`; the number of opcodes. -/
def OP_NUMBER_OF_OPS : Nat := 8

/-- The type `struct opcode_to_disinfo`. -/
structure disinfo where
  num_args : Nat
  name : List Nat
  deriving DecidableEq, Repr

/-- The table `opcode_to_disinfo[]`, the entry of index `op` being the one the source
designates with `[op] =`. -/
def opcode_to_disinfo : List disinfo :=
  [ ⟨0, cstr "ABORT"⟩,
    ⟨1, cstr "PUSHI"⟩,
    ⟨0, cstr "ADD"⟩,
    ⟨0, cstr "SUB"⟩,
    ⟨0, cstr "DIV"⟩,
    ⟨0, cstr "MUL"⟩,
    ⟨0, cstr "POP_RES"⟩,
    ⟨0, cstr "DONE"⟩ ]

/-! ## `opname_to_opcode` -/

/-- The loop of `opname_to_opcode` from index `i` on, over the entries not yet
visited. -/
def opname_scan (opname : List Nat) : List disinfo → Nat → Option (Nat × Nat)
  | [], _ => none
  | e :: rest, i =>
    if strcasecmp e.name opname = 0 then some (i, e.num_args)
    else opname_scan opname rest (i + 1)

/-- The function `opname_to_opcode`: `some (op, num_args)`, or `none` for
`exit(EXIT_FAILURE)` after "Unknown operation name". -/
def opname_to_opcode (opname : List Nat) : Option (Nat × Nat) :=
  opname_scan opname (opcode_to_disinfo.take OP_NUMBER_OF_OPS) 0

/-! ## Disassembler -/

/-- One access the disassembler makes. -/
inductive Access
  | cond (offset : Nat)
  | opcode (offset : Nat)
  | arg (offset : Nat)
  | table (index : Nat)
  deriving DecidableEq, Repr

/-- How a run of the disassembler stands. -/
inductive Status
  | ok
  | undefined
  | out_of_fuel
  deriving DecidableEq, Repr

/-- State of the `dis` command: what was printed, what was accessed, and whether
the behaviour is still defined. -/
structure Proc where
  stdout : List Nat
  log : List Access
  status : Status
  deriving DecidableEq, Repr

/-- The loop of `print_arg`: prints each of the `num_args` bytes from `arg_offset`
on with `" %d"`, then the newline. -/
def print_arg_loop (bytecode : List Nat) : Nat → Nat → Proc → Proc
  | 0, _, p => { p with stdout := p.stdout ++ [10] }
  | n + 1, arg_offset, p =>
    match bytecode[arg_offset]? with
    | none => { p with log := p.log ++ [Access.arg arg_offset], status := Status.undefined }
    | some b =>
      print_arg_loop bytecode n (arg_offset + 1)
        { p with stdout := p.stdout ++ 32 :: print_d b, log := p.log ++ [Access.arg arg_offset] }

/-- The function `print_arg`. -/
def print_arg (name : List Nat) (arg_offset : Nat) (bytecode : List Nat) (num_args : Nat)
    (p : Proc) : Proc :=
  print_arg_loop bytecode num_args arg_offset { p with stdout := p.stdout ++ name }

/-- The function `print_instruction`: the new offset and the new state. -/
def print_instruction (bytecode : List Nat) (offset : Nat) (p : Proc) : Nat × Proc :=
  match bytecode[offset]? with
  | none => (offset + 1, { p with log := p.log ++ [Access.opcode offset], status := Status.undefined })
  | some op =>
    match opcode_to_disinfo[op]? with
    | none =>
      (offset + 1,
        { p with log := p.log ++ [Access.opcode offset, Access.table op], status := Status.undefined })
    | some e =>
      (offset + 1 + e.num_args,
        print_arg e.name (offset + 1) bytecode e.num_args
          { p with log := p.log ++ [Access.opcode offset, Access.table op] })

/-- The `while` loop of `disassemble`. -/
def disassemble_loop (bytecode : List Nat) : Nat → Nat → Proc → Proc
  | 0, _, p => { p with status := Status.out_of_fuel }
  | fuel + 1, offset, p =>
    match bytecode[offset]? with
    | none => { p with log := p.log ++ [Access.cond offset], status := Status.undefined }
    | some b =>
      if b = 0 then { p with log := p.log ++ [Access.cond offset] }
      else
        match print_instruction bytecode offset { p with log := p.log ++ [Access.cond offset] } with
        | (offset1, p1) =>
          if p1.status = Status.ok then disassemble_loop bytecode fuel offset1 p1 else p1

/-- The function `disassemble`: status `ok` stands for `return EXIT_SUCCESS`.  Every iteration
moves the offset forward, so `bytecode.length + 1` iterations reach the end of the
buffer. -/
def disassemble (bytecode : List Nat) : Proc :=
  disassemble_loop bytecode (bytecode.length + 1) 0 ⟨[], [], Status.ok⟩

/-- The function `read_file`: the bytes of the file followed by the byte 0 the function
appends. -/
def read_file (file : List Nat) : List Nat := file ++ [0]

/-! ## Runner -/

/-- What `run` leaves behind: its return value and what it printed. -/
structure RunResult where
  status : Nat
  stdout : List Nat
  stderr : List Nat
  deriving DecidableEq, Repr

/-- The function `run`, the engine being given by `vm_interpret` and by the value (a
`uint64_t`) that `vm_get_result` returns after it. -/
def run (vm_interpret : List Nat → interpret_result) (vm_get_result : List Nat → Nat)
    (bytecode : List Nat) : RunResult :=
  let res := vm_interpret bytecode
  if res ≠ interpret_result.SUCCESS then
    ⟨EXIT_FAILURE, [], cstr "Runtime error: " ++ error_to_msg res ++ [10]⟩
  else
    ⟨EXIT_SUCCESS, cstr "Result value: " ++ print_d (vm_get_result bytecode) ++ [10], []⟩

/-! ## Assembler -/

/-- The store `bytecode[i] = v`. -/
def store (bytecode : Nat → Nat) (i v : Nat) : Nat → Nat :=
  fun j => if j = i then v else bytecode j

/-- The loop "Strip spaces" of `compile_line`: copies the bytes of `opname` that
are not white space. -/
def strip_spaces : List Nat → List Nat
  | [] => []
  | c :: opname => if isspace c then strip_spaces opname else c :: strip_spaces opname

/-- The `for (;;)` loop of `compile_line`, `saveptr` being the rest of the line and
`arg_num` the number of arguments still expected. -/
def compile_args : Nat → List Nat → (Nat → Nat) → Nat → Option ((Nat → Nat) × Nat)
  | 0, saveptr, bytecode, pc =>
    match strtok_r saveptr with
    | none => some (bytecode, pc)
    | some _ => none
  | arg_num + 1, saveptr, bytecode, pc =>
    match strtok_r saveptr with
    | none => none
    | some (arg, saveptr1) =>
      match sscanf_SCNi8 arg with
      | none => none
      | some arg_val => compile_args arg_num saveptr1 (store bytecode pc (to_uint8 arg_val)) (pc + 1)

/-- The function `compile_line`: the buffer and the new `pc`, or `none` for
`exit(EXIT_FAILURE)`. -/
def compile_line (line : List Nat) (bytecode : Nat → Nat) (pc : Nat) :
    Option ((Nat → Nat) × Nat) :=
  if line.head? = some 35 ∨ line.head? = some 10 then some (bytecode, pc)
  else
    match strtok_r line with
    | none => none
    | some (opname, saveptr) =>
      match opname_to_opcode (strip_spaces opname) with
      | none => none
      | some (op, arg_num) => compile_args arg_num saveptr (store bytecode pc (op % 256)) (pc + 1)

/-- The strings the successive calls `fgets(line_buf, MAX_LINE_LEN, file)` deliver:
each call reads up to and including a newline, at most `MAX_LINE_LEN - 1` bytes. -/
def fgets_lines : List Nat → List Nat → List (List Nat)
  | [], line_buf => if line_buf = [] then [] else [line_buf]
  | c :: file, line_buf =>
    if c = 10 ∨ line_buf.length + 1 = MAX_LINE_LEN - 1 then
      (line_buf ++ [c]) :: fgets_lines file []
    else fgets_lines file (line_buf ++ [c])

/-- The C string held by a character array: its bytes before the first NUL. -/
def c_string (buf : List Nat) : List Nat := buf.takeWhile (fun c => c != 0)

/-- The `while (fgets ...)` loop of `compile_file` over the lines still to read.
A line that moves `pc` past the `MAX_CODE_LEN` bytes allocated has stored outside
the allocation; no buffer is returned then either. -/
def compile_lines : List (List Nat) → (Nat → Nat) → Nat → Option ((Nat → Nat) × Nat)
  | [], bytecode, pc => some (bytecode, pc)
  | line_buf :: rest, bytecode, pc =>
    match compile_line (c_string line_buf) bytecode pc with
    | none => none
    | some (bytecode1, pc1) =>
      if pc1 ≤ MAX_CODE_LEN then compile_lines rest bytecode1 pc1 else none

/-- The function `compile_file` on the contents of the source file; `heap` is what the memory
returned by `malloc(MAX_CODE_LEN)` holds.  The C function returns only the buffer;
the final `pc` is returned as well so that the bytes emitted can be named. -/
def compile_file (heap : Nat → Nat) (file : List Nat) : Option ((Nat → Nat) × Nat) :=
  compile_lines (fgets_lines file []) heap 0

/-- The first `pc` bytes of a buffer. -/
def emitted (bytecode : Nat → Nat) (pc : Nat) : List Nat := (List.range pc).map bytecode

/-- The function `write_file` on the buffer of `compile_file`: the bytes written to the output
file, or `none` when `strlen` finds no NUL within the allocation or when `fwrite`
is asked for an item of size 0 and so returns 0, which the code treats as a
failure. -/
def write_file (bytecode : Nat → Nat) : Option (List Nat) :=
  match strlen bytecode MAX_CODE_LEN with
  | none => none
  | some 0 => none
  | some (len + 1) => some ((List.range (len + 1)).map bytecode)

end PigletVM

namespace PigletVM

/-! ## Notions used to state the properties -/

/-- Two names are the same up to the case of their letters. -/
def same_ignoring_case (a b : List Nat) : Prop := a.map tolower = b.map tolower

instance (a b : List Nat) : Decidable (same_ignoring_case a b) := by
  unfold same_ignoring_case; infer_instance

/-- The tokens of a line: the non-empty pieces between its spaces. -/
def tokens (line : List Nat) : List (List Nat) :=
  (line.splitOn 32).filter (fun t => decide (t ≠ []))

/-- The buffer after the bytes `vs` are stored from index `pc` on. -/
def store_list (bytecode : Nat → Nat) (pc : Nat) : List Nat → (Nat → Nat)
  | [] => bytecode
  | v :: vs => store_list (store bytecode pc v) (pc + 1) vs

/-- The values of a list of argument tokens, when each of them is read by the
argument conversion. -/
def argument_values : List (List Nat) → Option (List Int)
  | [] => some []
  | t :: ts =>
    match sscanf_SCNi8 t with
    | none => none
    | some v => (argument_values ts).map (fun vs => v :: vs)

/-- The bytes of the instruction a line stands for, in the words of the spec: the
first token, white space removed, is looked up in the opcode table; there must be
as many argument tokens as the arity; the opcode byte is followed by the argument
bytes in source order.  `none` when the line is no instruction. -/
def instruction_bytes (line : List Nat) : Option (List Nat) :=
  match tokens line with
  | [] => none
  | m :: args =>
    match opname_to_opcode (m.filter (fun c => !isspace c)) with
    | none => none
    | some (op, arity) =>
      match argument_values args with
      | none => none
      | some vs => if vs.length = arity then some (op :: vs.map to_uint8) else none

/-- The lines the assembler passes over: those whose first byte is `#` or a
newline. -/
def is_skipped (line : List Nat) : Prop := line.head? = some 35 ∨ line.head? = some 10

instance (line : List Nat) : Decidable (is_skipped line) := by
  unfold is_skipped; infer_instance

/-- The line of text that shows the instruction `op :: args`: the mnemonic of the
table, each argument byte in decimal after a space, and a newline. -/
def instruction_text : List Nat → List Nat
  | [] => []
  | op :: args =>
    (match opcode_to_disinfo[op]? with
      | some e => e.name
      | none => []) ++ (args.map (fun a => 32 :: print_d a)).flatten ++ [10]

/-- The accesses made for the instruction `op :: args` found at `offset`: the test
of the loop, the opcode, the table, and one argument after the other. -/
def instruction_accesses (offset : Nat) : List Nat → List Access
  | [] => []
  | op :: args =>
    [Access.cond offset, Access.opcode offset, Access.table op] ++
      (List.range args.length).map (fun k => Access.arg (offset + 1 + k))

/-- The accesses made for a sequence of instructions laid out from `offset` on and
followed by the byte that stops the loop. -/
def program_accesses : Nat → List (List Nat) → List Access
  | offset, [] => [Access.cond offset]
  | offset, ins :: prog =>
    instruction_accesses offset ins ++ program_accesses (offset + ins.length) prog

/-- An encoded instruction: an opcode byte other than 0 that has a table entry,
followed by as many argument bytes as the entry says. -/
def well_formed (ins : List Nat) : Prop :=
  ∃ op args e, ins = op :: args ∧ op ≠ 0 ∧ opcode_to_disinfo[op]? = some e ∧
    args.length = e.num_args

/-- The number a string of decimal digits denotes. -/
def digits_value (ds : List Nat) : Nat := ds.foldl (fun acc c => acc * 10 + (c - 48)) 0

/-- The digits of a token: the token without its sign, if it has one. -/
def token_digits : List Nat → List Nat
  | [] => []
  | c :: r => if c = 45 ∨ c = 43 then r else c :: r

/-- The integer a token denotes in decimal: its digits, negated after a minus
sign. -/
def token_value (t : List Nat) : Int :=
  if t.head? = some 45 then -(digits_value (token_digits t) : Int)
  else (digits_value (token_digits t) : Int)

/-- A decimal integer token: an optional sign followed by at least one byte, all
of them decimal digits. -/
def is_decimal_token (t : List Nat) : Prop :=
  token_digits t ≠ [] ∧ ∀ c ∈ token_digits t, 48 ≤ c ∧ c ≤ 57

instance (t : List Nat) : Decidable (is_decimal_token t) := by
  unfold is_decimal_token; infer_instance

/-- A token has no leading zero: its first digit is 0 only when it is its only
digit. -/
def no_leading_zero (t : List Nat) : Prop :=
  (token_digits t).head? = some 48 → token_digits t = [48]

instance (t : List Nat) : Decidable (no_leading_zero t) := by
  unfold no_leading_zero; infer_instance

/-- An integer literal as a whole: after an optional sign, either decimal digits
only, or `0x` or `0X` followed by hexadecimal digits only. -/
def is_integer_literal (t : List Nat) : Prop :=
  is_decimal_token t ∨
    ∃ r, (token_digits t = 48 :: 120 :: r ∨ token_digits t = 48 :: 88 :: r) ∧ r ≠ [] ∧
      ∀ c ∈ r, (48 ≤ c ∧ c ≤ 57) ∨ (97 ≤ c ∧ c ≤ 102) ∨ (65 ≤ c ∧ c ≤ 70)

/-- A comment line: its first byte is `#`. -/
def is_comment (line : List Nat) : Prop := line.head? = some 35

instance (line : List Nat) : Decidable (is_comment line) := by
  unfold is_comment; infer_instance

/-- A blank line: it holds no byte that is not white space. -/
def is_blank (line : List Nat) : Prop := ∀ c ∈ line, isspace c = true

instance (line : List Nat) : Decidable (is_blank line) := by
  unfold is_blank; infer_instance

/-- A line of source text as `fgets` hands it to `compile_line`: fewer than
`MAX_LINE_LEN` bytes, no NUL, and no newline except as the last byte. -/
def is_source_line (line : List Nat) : Prop :=
  line.length < MAX_LINE_LEN ∧ 0 ∉ line ∧ 10 ∉ line.dropLast

instance (line : List Nat) : Decidable (is_source_line line) := by
  unfold is_source_line; infer_instance

/-- The mnemonic of a line: its first token, white space (the newline that ends
the line in particular) removed. -/
def line_mnemonic (line : List Nat) : List Nat :=
  ((tokens line).headD []).filter (fun c => !isspace c)

/-- The argument tokens of a line: its tokens after the first. -/
def line_arguments (line : List Nat) : List (List Nat) := (tokens line).tail

/-- An integer can be read from a token: after white space and one optional sign
it begins with a decimal digit. -/
def begins_with_integer (tok : List Nat) : Bool :=
  match tok.dropWhile isspace with
  | [] => false
  | c :: r =>
    if c = 45 ∨ c = 43 then
      (match r with
        | [] => false
        | d :: _ => isdigit d)
    else isdigit c

/-- The mismatches of a line: its mnemonic is the name of no opcode up to letter
case, or it is the name of an opcode and the line has fewer argument tokens than
its arity, or more, or an argument token from which no integer can be read. -/
def argument_mismatch (line : List Nat) : Prop :=
  (∀ e ∈ opcode_to_disinfo, ¬ same_ignoring_case (line_mnemonic line) e.name) ∨
    ∃ e ∈ opcode_to_disinfo, same_ignoring_case (line_mnemonic line) e.name ∧
      ((line_arguments line).length < e.num_args ∨
        e.num_args < (line_arguments line).length ∨
        ∃ t ∈ line_arguments line, begins_with_integer t = false)

instance (line : List Nat) : Decidable (argument_mismatch line) := by
  unfold argument_mismatch; infer_instance

/-- The lines of a source file as `compile_file` passes them to `compile_line`. -/
def source_lines (file : List Nat) : List (List Nat) := (fgets_lines file []).map c_string

/-- The lines of a source file that are not passed over. -/
def instruction_lines (file : List Nat) : List (List Nat) :=
  (source_lines file).filter (fun l => decide (¬ is_skipped l))

/-- The instructions a source file stands for, each as its bytes, in source
order. -/
def program (file : List Nat) : List (List Nat) :=
  (instruction_lines file).filterMap instruction_bytes

/-- An access lies inside a buffer of `size` bytes, or inside the opcode table. -/
def in_bounds (size : Nat) : Access → Prop
  | Access.cond i => i < size
  | Access.opcode i => i < size
  | Access.arg i => i < size
  | Access.table k => k < OP_NUMBER_OF_OPS

/-- An access that reads a byte as an opcode or as an argument does so strictly
below the index `z`. -/
def below (z : Nat) : Access → Prop
  | Access.opcode i => i < z
  | Access.arg i => i < z
  | _ => True

/-- The function `toupper` in the C locale. -/
def toupper (c : Nat) : Nat := if 97 ≤ c ∧ c ≤ 122 then c - 32 else c

/-- The line of the listing that answers a source line: its mnemonic in upper
case, then after a space each the decimal value of the byte of each argument (the
value of the argument reduced modulo 256), then a newline. -/
def listing_line (line : List Nat) : List Nat :=
  (line_mnemonic line).map toupper ++
    ((line_arguments line).map
      (fun t => 32 :: print_d (to_uint8 ((sscanf_SCNi8 t).getD 0)))).flatten ++ [10]

/-- The lines of a text up to white space: for each line its tokens separated
by white space, the lines without a token being left out. -/
def lines_up_to_space (text : List Nat) : List (List (List Nat)) :=
  ((text.splitOn 10).map
    (fun l => (l.splitOnP isspace).filter (fun t => decide (t ≠ [])))).filter
      (fun ts => decide (ts ≠ []))

/-- The instruction lines of a source text up to white space: its lines that are
no comment. -/
def source_lines_up_to_space (text : List Nat) : List (List (List Nat)) :=
  (((text.splitOn 10).filter (fun l => decide (l.head? ≠ some 35))).map
    (fun l => (l.splitOnP isspace).filter (fun t => decide (t ≠ [])))).filter
      (fun ts => decide (ts ≠ []))

/-! ## Basic facts on the library functions -/

theorem opcode_to_disinfo_eq :
    opcode_to_disinfo =
      [ ⟨0, [65, 66, 79, 82, 84]⟩, ⟨1, [80, 85, 83, 72, 73]⟩, ⟨0, [65, 68, 68]⟩,
        ⟨0, [83, 85, 66]⟩, ⟨0, [68, 73, 86]⟩, ⟨0, [77, 85, 76]⟩,
        ⟨0, [80, 79, 80, 95, 82, 69, 83]⟩, ⟨0, [68, 79, 78, 69]⟩ ] := by
  decide

/-- Each entry of the table sits at the index its designator names. -/
theorem opcode_to_disinfo_designators :
    opcode_to_disinfo[OP_ABORT]? = some ⟨0, cstr "ABORT"⟩ ∧
      opcode_to_disinfo[OP_PUSHI]? = some ⟨1, cstr "PUSHI"⟩ ∧
      opcode_to_disinfo[OP_ADD]? = some ⟨0, cstr "ADD"⟩ ∧
      opcode_to_disinfo[OP_SUB]? = some ⟨0, cstr "SUB"⟩ ∧
      opcode_to_disinfo[OP_DIV]? = some ⟨0, cstr "DIV"⟩ ∧
      opcode_to_disinfo[OP_MUL]? = some ⟨0, cstr "MUL"⟩ ∧
      opcode_to_disinfo[OP_POP_RES]? = some ⟨0, cstr "POP_RES"⟩ ∧
      opcode_to_disinfo[OP_DONE]? = some ⟨0, cstr "DONE"⟩ ∧
      opcode_to_disinfo.length = OP_NUMBER_OF_OPS := by
  decide

theorem tolower_eq_zero {c : Nat} : tolower c = 0 ↔ c = 0 := by
  unfold tolower
  constructor
  · intro h
    split_ifs at h
    omega
  · intro h
    subst h
    rfl

theorem strcasecmp_of_map_eq (a b : List Nat) (h : a.map tolower = b.map tolower) :
    strcasecmp a b = 0 := by
  induction a generalizing b with
  | nil =>
    cases b with
    | nil => simp [strcasecmp]
    | cons c t => simp at h
  | cons x s ih =>
    cases b with
    | nil => simp at h
    | cons c t =>
      simp only [List.map_cons, List.cons.injEq] at h
      simp [strcasecmp, h.1, ih t h.2]

theorem map_eq_of_strcasecmp (a b : List Nat) (ha : 0 ∉ a) (hb : 0 ∉ b)
    (h : strcasecmp a b = 0) : a.map tolower = b.map tolower := by
  induction a generalizing b with
  | nil =>
    cases b with
    | nil => rfl
    | cons c t =>
      simp only [strcasecmp] at h
      have hc : tolower c = 0 := by omega
      rw [tolower_eq_zero] at hc
      simp [hc] at hb
  | cons x s ih =>
    cases b with
    | nil =>
      simp only [strcasecmp] at h
      have hc : tolower x = 0 := by omega
      rw [tolower_eq_zero] at hc
      simp [hc] at ha
    | cons c t =>
      simp only [List.mem_cons, not_or] at ha hb
      by_cases hxc : tolower x = tolower c
      · simp only [strcasecmp, hxc, if_true] at h
        simp [hxc, ih t ha.2 hb.2 h]
      · simp only [strcasecmp, hxc, if_false] at h
        omega

theorem strcasecmp_eq_zero_iff (a b : List Nat) (ha : 0 ∉ a) (hb : 0 ∉ b) :
    strcasecmp a b = 0 ↔ a.map tolower = b.map tolower :=
  ⟨map_eq_of_strcasecmp a b ha hb, strcasecmp_of_map_eq a b⟩

theorem zero_not_mem_of_map_tolower {a b : List Nat} (h : a.map tolower = b.map tolower)
    (hb : 0 ∉ b) : 0 ∉ a := by
  intro ha
  have h1 : tolower 0 ∈ a.map tolower := List.mem_map_of_mem _ ha
  rw [h] at h1
  obtain ⟨c, hc, hc0⟩ := List.mem_map.1 h1
  have : tolower 0 = 0 := by decide
  rw [this, tolower_eq_zero] at hc0
  exact hb (hc0 ▸ hc)

/-- The scan of `opname_to_opcode` over the whole table, for a name without NUL,
as a cascade of case-insensitive comparisons. -/
theorem opname_to_opcode_cases (opname : List Nat) (h0 : 0 ∉ opname) :
    opname_to_opcode opname =
      if opname.map tolower = [97, 98, 111, 114, 116] then some (0, 0)
      else if opname.map tolower = [112, 117, 115, 104, 105] then some (1, 1)
      else if opname.map tolower = [97, 100, 100] then some (2, 0)
      else if opname.map tolower = [115, 117, 98] then some (3, 0)
      else if opname.map tolower = [100, 105, 118] then some (4, 0)
      else if opname.map tolower = [109, 117, 108] then some (5, 0)
      else if opname.map tolower = [112, 111, 112, 95, 114, 101, 115] then some (6, 0)
      else if opname.map tolower = [100, 111, 110, 101] then some (7, 0)
      else none := by
  have e : ∀ a : List Nat, 0 ∉ a →
      (strcasecmp a opname = 0 ↔ opname.map tolower = a.map tolower) := by
    intro a ha
    rw [strcasecmp_eq_zero_iff a opname ha h0]
    exact eq_comm
  simp only [opname_to_opcode]
  rw [opcode_to_disinfo_eq]
  simp only [OP_NUMBER_OF_OPS, List.take, opname_scan]
  simp only [e _ (by decide : (0:Nat) ∉ [65, 66, 79, 82, 84]),
    e _ (by decide : (0:Nat) ∉ [80, 85, 83, 72, 73]),
    e _ (by decide : (0:Nat) ∉ [65, 68, 68]),
    e _ (by decide : (0:Nat) ∉ [83, 85, 66]),
    e _ (by decide : (0:Nat) ∉ [68, 73, 86]),
    e _ (by decide : (0:Nat) ∉ [77, 85, 76]),
    e _ (by decide : (0:Nat) ∉ [80, 79, 80, 95, 82, 69, 83]),
    e _ (by decide : (0:Nat) ∉ [68, 79, 78, 69])]
  simp [tolower]

/-! ## Tokens and `strtok_r` -/

theorem tokens_nil : tokens [] = [] := by decide

theorem tokens_cons_space (s : List Nat) : tokens (32 :: s) = tokens s := by
  simp [tokens, List.splitOn]

theorem tokens_dropWhile (s : List Nat) : tokens (s.dropWhile (fun c => c == 32)) = tokens s := by
  induction s with
  | nil => rfl
  | cons c s ih =>
    by_cases h : c = 32
    · subst h
      simp only [List.dropWhile_cons, beq_self_eq_true, if_true]
      rw [ih, tokens_cons_space]
    · simp [List.dropWhile_cons, h]

theorem tokens_of_no_space (t : List Nat) (ht : t ≠ []) (h : 32 ∉ t) : tokens t = [t] := by
  unfold tokens List.splitOn
  rw [List.splitOnP_eq_single]
  · simp [ht]
  · intro x hx hx2
    simp only [beq_iff_eq] at hx2
    exact h (hx2 ▸ hx)

theorem tokens_append_space (t r : List Nat) (ht : t ≠ []) (h : 32 ∉ t) :
    tokens (t ++ 32 :: r) = t :: tokens r := by
  unfold tokens List.splitOn
  rw [List.splitOnP_first]
  · simp [ht]
  · intro x hx hx2
    simp only [beq_iff_eq] at hx2
    exact h (hx2 ▸ hx)
  · simp

theorem tokens_strtok_r (s : List Nat) :
    tokens s = match strtok_r s with
      | none => []
      | some (t, r) => t :: tokens r := by
  rw [← tokens_dropWhile s]
  unfold strtok_r
  cases hd : s.dropWhile (fun c => c == 32) with
  | nil => simp [tokens_nil]
  | cons c t =>
    simp only
    have hsplit := List.takeWhile_append_dropWhile (fun c => c != 32) (c :: t)
    have hc : c ≠ 32 := by
      have := List.head_dropWhile_not (fun c => c == 32) s
      simp [hd] at this
      exact this
    have hne : (c :: t).takeWhile (fun c => c != 32) ≠ [] := by
      simp [List.takeWhile_cons, hc]
    have hns : 32 ∉ (c :: t).takeWhile (fun c => c != 32) := by
      intro hm
      have := List.mem_takeWhile_imp hm
      simp at this
    cases hr : (c :: t).dropWhile (fun c => c != 32) with
    | nil =>
      rw [hr, List.append_nil] at hsplit
      simp only [List.drop_nil, tokens_nil]
      rw [hsplit]
      exact tokens_of_no_space _ (by simp) (hsplit ▸ hns)
    | cons x r =>
      have hx : x = 32 := by
        have := List.head_dropWhile_not (fun c => c != 32) (c :: t)
        simp [hr] at this
        exact this
      subst hx
      rw [hr] at hsplit
      simp only [List.drop_succ_cons, List.drop_zero]
      conv_lhs => rw [← hsplit]
      exact tokens_append_space _ _ hne hns

/-! ## The assembler, line by line -/

theorem strip_spaces_eq_filter (s : List Nat) :
    strip_spaces s = s.filter (fun c => !isspace c) := by
  induction s with
  | nil => rfl
  | cons c s ih =>
    by_cases h : isspace c = true
    · simp [strip_spaces, h, ih]
    · simp [strip_spaces, h, ih]

theorem opname_scan_spec (opname : List Nat) (tbl : List disinfo) (k op n : Nat)
    (h : opname_scan opname tbl k = some (op, n)) :
    k ≤ op ∧ ∃ e, tbl[op - k]? = some e ∧ e.num_args = n ∧ strcasecmp e.name opname = 0 := by
  induction tbl generalizing k with
  | nil => simp [opname_scan] at h
  | cons e rest ih =>
    simp only [opname_scan] at h
    split_ifs at h with hz
    · simp only [Option.some.injEq, Prod.mk.injEq] at h
      obtain ⟨h1, h2⟩ := h
      subst h1
      exact ⟨le_refl _, e, by simp, h2, hz⟩
    · obtain ⟨hk, e1, he1, hn, hs⟩ := ih (k + 1) h
      refine ⟨by omega, e1, ?_, hn, hs⟩
      have : op - k = (op - (k + 1)) + 1 := by omega
      rw [this, List.getElem?_cons_succ]
      exact he1

theorem opname_to_opcode_spec (opname : List Nat) (op n : Nat)
    (h : opname_to_opcode opname = some (op, n)) :
    op < OP_NUMBER_OF_OPS ∧
      ∃ e, opcode_to_disinfo[op]? = some e ∧ e.num_args = n ∧ strcasecmp e.name opname = 0 := by
  obtain ⟨_, e, he, hn, hs⟩ := opname_scan_spec opname _ 0 op n h
  simp only [Nat.sub_zero] at he
  have hlt : op < (opcode_to_disinfo.take OP_NUMBER_OF_OPS).length := by
    by_contra hc
    rw [List.getElem?_eq_none (by omega)] at he
    cases he
  rw [List.getElem?_take] at he
  refine ⟨?_, e, ?_, hn, hs⟩
  · simp at hlt; omega
  · split_ifs at he with h1
    · exact he

theorem compile_args_eq (n : Nat) (s : List Nat) (b : Nat → Nat) (pc : Nat) :
    compile_args n s b pc =
      match argument_values (tokens s) with
      | none => none
      | some vs =>
        if vs.length = n then some (store_list b pc (vs.map to_uint8), pc + n) else none := by
  induction n generalizing s b pc with
  | zero =>
    rw [tokens_strtok_r s]
    unfold compile_args
    cases hs : strtok_r s with
    | none => simp [argument_values, store_list]
    | some tr =>
      obtain ⟨t, r⟩ := tr
      simp only [argument_values]
      cases sscanf_SCNi8 t with
      | none => rfl
      | some v =>
        cases argument_values (tokens r) with
        | none => rfl
        | some vs => simp
  | succ n ih =>
    rw [tokens_strtok_r s]
    unfold compile_args
    cases hs : strtok_r s with
    | none => simp [argument_values]
    | some tr =>
      obtain ⟨t, r⟩ := tr
      simp only [argument_values]
      cases sscanf_SCNi8 t with
      | none => rfl
      | some v =>
        simp only [ih]
        cases argument_values (tokens r) with
        | none => rfl
        | some vs =>
          simp only [Option.map_some', List.length_cons, add_left_inj, List.map_cons, store_list]
          split_ifs
          · simp; omega
          · rfl

theorem compile_line_eq (line : List Nat) (b : Nat → Nat) (pc : Nat) :
    compile_line line b pc =
      if is_skipped line then some (b, pc)
      else (instruction_bytes line).map (fun bs => (store_list b pc bs, pc + bs.length)) := by
  unfold compile_line is_skipped
  split_ifs with h1
  · rfl
  · unfold instruction_bytes
    rw [tokens_strtok_r line]
    cases hs : strtok_r line with
    | none => rfl
    | some tr =>
      obtain ⟨t, r⟩ := tr
      simp only [strip_spaces_eq_filter]
      cases ho : opname_to_opcode (t.filter (fun c => !isspace c)) with
      | none => rfl
      | some opn =>
        obtain ⟨op, n⟩ := opn
        have hop := (opname_to_opcode_spec _ _ _ ho).1
        simp only [OP_NUMBER_OF_OPS] at hop
        have hmod : op % 256 = op := by omega
        simp only [compile_args_eq, hmod]
        cases argument_values (tokens r) with
        | none => rfl
        | some vs =>
          simp only
          split_ifs with hl
          · simp [store_list, hl]; omega
          · rfl

/-! ## The disassembler on encoded instructions -/

theorem print_arg_loop_eq (bytecode : List Nat) (args post : List Nat) (off : Nat) (p : Proc)
    (h : bytecode.drop off = args ++ post) :
    print_arg_loop bytecode args.length off p =
      { p with
        stdout := p.stdout ++ (args.map (fun a => 32 :: print_d a)).flatten ++ [10],
        log := p.log ++ (List.range args.length).map (fun k => Access.arg (off + k)) } := by
  induction args generalizing off p with
  | nil => simp [print_arg_loop]
  | cons a args ih =>
    have h0 : bytecode[off]? = some a := by
      have := List.getElem?_drop (L := bytecode) (i := off) (j := 0)
      rw [h] at this
      simpa using this.symm
    have h1 : bytecode.drop (off + 1) = args ++ post := by
      have : bytecode.drop (off + 1) = (bytecode.drop off).drop 1 := by
        rw [List.drop_drop]
      rw [this, h]; simp
    simp only [List.length_cons, print_arg_loop, h0]
    rw [ih (off + 1) _ h1]
    simp only [List.range_succ_eq_map, List.map_cons, List.map_map, List.flatten_cons]
    congr 1
    · simp
    · simp only [List.append_assoc, List.cons_append, List.nil_append, Nat.add_zero]
      congr 3
      funext k
      simp only [Function.comp_apply, Nat.succ_eq_add_one]
      congr 1
      omega

theorem disassemble_loop_eq (bytecode : List Nat) (prog : List (List Nat)) (rest : List Nat)
    (hwf : ∀ ins ∈ prog, well_formed ins) (fuel offset : Nat) (p : Proc)
    (hfuel : prog.length < fuel) (hp : p.status = Status.ok)
    (h : bytecode.drop offset = prog.flatten ++ 0 :: rest) :
    disassemble_loop bytecode fuel offset p =
      { stdout := p.stdout ++ (prog.map instruction_text).flatten,
        log := p.log ++ program_accesses offset prog,
        status := Status.ok } := by
  induction prog generalizing fuel offset p with
  | nil =>
    obtain ⟨fuel, rfl⟩ : ∃ f, fuel = f + 1 := ⟨fuel - 1, by simp at hfuel; omega⟩
    have h0 : bytecode[offset]? = some 0 := by
      have := List.getElem?_drop (L := bytecode) (i := offset) (j := 0)
      rw [h] at this
      simpa using this.symm
    simp [disassemble_loop, h0, program_accesses, ← hp]
  | cons ins prog ih =>
    obtain ⟨fuel, rfl⟩ : ∃ f, fuel = f + 1 := ⟨fuel - 1, by simp at hfuel; omega⟩
    obtain ⟨op, args, e, rfl, hop, he, hlen⟩ := hwf _ (List.mem_cons_self _ _)
    have h0 : bytecode[offset]? = some op := by
      have := List.getElem?_drop (L := bytecode) (i := offset) (j := 0)
      rw [h] at this
      simpa using this.symm
    have h1 : bytecode.drop (offset + 1) = args ++ (prog.flatten ++ 0 :: rest) := by
      have : bytecode.drop (offset + 1) = (bytecode.drop offset).drop 1 := by
        rw [List.drop_drop]
      rw [this, h]; simp
    have h2 : bytecode.drop (offset + 1 + e.num_args) = prog.flatten ++ 0 :: rest := by
      have : bytecode.drop (offset + 1 + e.num_args)
          = (bytecode.drop (offset + 1)).drop e.num_args := by
        rw [List.drop_drop]
      rw [this, h1, ← hlen]; simp
    simp only [disassemble_loop, h0, hop, if_false, print_instruction, he, print_arg]
    rw [← hlen, print_arg_loop_eq bytecode args _ (offset + 1) _ h1]
    simp only [hp, if_true]
    rw [hlen, ih (fun i hi => hwf i (List.mem_cons_of_mem _ hi)) fuel _ _
      (by simp at hfuel; omega) rfl h2]
    simp only [instruction_text, he, program_accesses, instruction_accesses, List.map_cons,
      List.flatten_cons, List.length_cons, Proc.mk.injEq, and_true]
    constructor
    · simp
    · simp only [List.append_assoc, List.cons_append, List.nil_append, List.singleton_append]
      congr 5
      · rw [hlen]
      · congr 1
        omega

/-! ## Decimal numerals and the mnemonics of the table -/

theorem scan_digits_decimal (ds : List Nat) (hd : ∀ c ∈ ds, 48 ≤ c ∧ c ≤ 57) (acc n : Nat) :
    scan_digits 10 (ds ++ [10]) acc n =
      (ds.foldl (fun a c => a * 10 + (c - 48)) acc, n + ds.length) := by
  induction ds generalizing acc n with
  | nil => simp [scan_digits, digit_value]
  | cons c r ih =>
    have hc := hd c (List.mem_cons_self _ _)
    have hlt : c - 48 < 10 := by omega
    show scan_digits 10 (c :: (r ++ [10])) acc n = _
    simp only [scan_digits, digit_value, hc, and_self, if_true, hlt,
      List.foldl_cons, List.length_cons]
    rw [ih (fun x hx => hd x (List.mem_cons_of_mem _ hx))]
    congr 1
    omega

theorem scan_unsigned_decimal (ds : List Nat) (hne : ds ≠ [])
    (hd : ∀ c ∈ ds, 48 ≤ c ∧ c ≤ 57) (hz : ds.head? = some 48 → ds = [48]) :
    scan_unsigned (ds ++ [10]) = some (digits_value ds) := by
  cases ds with
  | nil => exact absurd rfl hne
  | cons c r =>
    by_cases hc : c = 48
    · subst hc
      have := hz rfl
      simp only [List.cons.injEq, true_and] at this
      subst this
      decide
    · have h := scan_digits_decimal (c :: r) hd 0 0
      simp only [List.cons_append] at h
      simp only [List.cons_append, scan_unsigned, hc, if_false, h, List.length_cons]
      rw [if_neg (by omega)]
      rfl

theorem to_int8_clamp (v : Int) (h1 : -128 ≤ v) (h2 : v ≤ 127) :
    to_int8 (strtol_clamp v) = v := by
  have hc : strtol_clamp v = v := by
    unfold strtol_clamp LONG_MAX LONG_MIN
    omega
  rw [hc]
  unfold to_int8
  omega

theorem sscanf_decimal_token (t : List Nat) (ht : is_decimal_token t) (hz : no_leading_zero t)
    (h1 : -128 ≤ token_value t) (h2 : token_value t ≤ 127) :
    sscanf_SCNi8 (t ++ [10]) = some (token_value t) ∧ 32 ∉ t ++ [10] ∧ t ≠ [] := by
  obtain ⟨hne, hd⟩ := ht
  cases t with
  | nil => simp [token_digits] at hne
  | cons c r =>
    refine ⟨?_, ?_, by simp⟩
    · by_cases h45 : c = 45
      · subst h45
        simp only [token_digits, true_or, if_true] at hne hd
        simp only [no_leading_zero, token_digits, true_or, if_true] at hz
        simp only [token_value, List.head?_cons, if_true, token_digits, true_or] at h1 h2 ⊢
        have hs : (45 :: r ++ [10]).dropWhile isspace = 45 :: (r ++ [10]) := by
          simp [List.dropWhile_cons, isspace]
        simp only [sscanf_SCNi8, List.cons_append] at hs ⊢
        rw [hs]
        simp only [if_true, scan_unsigned_decimal r hne hd hz, Option.map_some']
        rw [to_int8_clamp _ h1 h2]
      · by_cases h43 : c = 43
        · subst h43
          simp only [token_digits, or_true, if_true] at hne hd
          simp only [no_leading_zero, token_digits, or_true, if_true] at hz
          have hv : token_value (43 :: r) = (digits_value r : Int) := by
            simp [token_value, token_digits]
          rw [hv] at h1 h2 ⊢
          have hs : (43 :: r ++ [10]).dropWhile isspace = 43 :: (r ++ [10]) := by
            simp [List.dropWhile_cons, isspace]
          simp only [sscanf_SCNi8, List.cons_append] at hs ⊢
          rw [hs]
          simp only [h45, if_false, if_true, scan_unsigned_decimal r hne hd hz,
            Option.map_some']
          rw [to_int8_clamp _ h1 h2]
        · simp only [token_digits, h45, h43, or_self, if_false] at hne hd
          simp only [no_leading_zero, token_digits, h45, h43, or_self, if_false] at hz
          have hv : token_value (c :: r) = (digits_value (c :: r) : Int) := by
            simp [token_value, token_digits, h45, h43]
          rw [hv] at h1 h2 ⊢
          have hc := hd c (List.mem_cons_self _ _)
          have hs : (c :: r ++ [10]).dropWhile isspace = c :: (r ++ [10]) := by
            have : isspace c = false := by
              simp [isspace]
              omega
            simp [List.dropWhile_cons, this]
          have hu := scan_unsigned_decimal (c :: r) (by simp) hd hz
          simp only [List.cons_append] at hu
          simp only [sscanf_SCNi8, List.cons_append] at hs ⊢
          rw [hs]
          simp only [h45, h43, if_false, hu, Option.map_some']
          rw [to_int8_clamp _ h1 h2]
    · intro hm
      simp only [List.cons_append, List.mem_cons, List.mem_append, List.mem_singleton] at hm
      rcases hm with h | h | h
      · subst h
        simp only [token_digits] at hd
        split_ifs at hd with hs
        · omega
        · have := hd 32 (List.mem_cons_self _ _)
          omega
      · simp only [token_digits] at hd
        split_ifs at hd with hs
        · have := hd 32 h
          omega
        · have := hd 32 (List.mem_cons_of_mem _ h)
          omega
      · exact absurd h (by decide)

theorem opname_to_opcode_of_same (i : Nat) (e : disinfo) (opname : List Nat)
    (hi : i < OP_NUMBER_OF_OPS) (he : opcode_to_disinfo[i]? = some e)
    (hs : same_ignoring_case opname e.name) :
    opname_to_opcode opname = some (i, e.num_args) := by
  unfold same_ignoring_case at hs
  rw [opcode_to_disinfo_eq] at he
  simp only [OP_NUMBER_OF_OPS] at hi
  have h0 : 0 ∉ opname := by
    apply zero_not_mem_of_map_tolower hs
    interval_cases i <;> simp at he <;> subst he <;> decide
  rw [opname_to_opcode_cases opname h0, hs]
  interval_cases i <;> simp at he <;> subst he <;> simp [tolower]

theorem table_names_lower : ∀ e ∈ opcode_to_disinfo, ∀ x ∈ e.name.map tolower, 95 ≤ x := by
  rw [opcode_to_disinfo_eq]
  decide

theorem table_names_ne_nil : ∀ e ∈ opcode_to_disinfo, e.name ≠ [] := by
  rw [opcode_to_disinfo_eq]
  decide

theorem table_num_args : ∀ e ∈ opcode_to_disinfo, e.num_args ≤ 1 := by
  rw [opcode_to_disinfo_eq]
  decide

theorem le_of_tolower_ge {c : Nat} (h : 95 ≤ tolower c) : 65 ≤ c := by
  unfold tolower at h
  split_ifs at h <;> omega

theorem same_name_chars {m : List Nat} {e : disinfo} (he : e ∈ opcode_to_disinfo)
    (hs : same_ignoring_case m e.name) : ∀ c ∈ m, 65 ≤ c := by
  intro c hc
  apply le_of_tolower_ge
  apply table_names_lower e he
  rw [← hs]
  exact List.mem_map_of_mem _ hc

theorem same_name_ne_nil {m : List Nat} {e : disinfo} (he : e ∈ opcode_to_disinfo)
    (hs : same_ignoring_case m e.name) : m ≠ [] := by
  intro h
  subst h
  unfold same_ignoring_case at hs
  have := table_names_ne_nil e he
  simp at hs
  exact this hs

theorem filter_mnemonic {m : List Nat} (h : ∀ c ∈ m, 65 ≤ c) :
    (m ++ [10]).filter (fun c => !isspace c) = m ∧ m.filter (fun c => !isspace c) = m := by
  have h1 : m.filter (fun c => !isspace c) = m := by
    rw [List.filter_eq_self]
    intro c hc
    have := h c hc
    simp [isspace]
    omega
  refine ⟨?_, h1⟩
  rw [List.filter_append, h1]
  simp [isspace]

/-! ## Stores -/

theorem store_list_below (vs : List Nat) (b : Nat → Nat) (pc j : Nat) (h : j < pc) :
    store_list b pc vs j = b j := by
  induction vs generalizing b pc with
  | nil => rfl
  | cons v vs ih =>
    simp only [store_list]
    rw [ih _ _ (by omega)]
    simp [store]
    omega

theorem store_list_at (vs : List Nat) (b : Nat → Nat) (pc k : Nat) (h : k < vs.length) :
    store_list b pc vs (pc + k) = vs[k] := by
  induction vs generalizing b pc k with
  | nil => simp at h
  | cons v vs ih =>
    simp only [store_list]
    cases k with
    | zero =>
      rw [store_list_below _ _ _ _ (by omega)]
      simp [store]
    | succ k =>
      have := ih (store b pc v) (pc + 1) k (by simpa using h)
      have e : pc + (k + 1) = pc + 1 + k := by omega
      rw [e, this]
      simp

theorem store_list_above (vs : List Nat) (b : Nat → Nat) (pc j : Nat) (h : pc + vs.length ≤ j) :
    store_list b pc vs j = b j := by
  induction vs generalizing b pc with
  | nil => rfl
  | cons v vs ih =>
    simp only [store_list]
    simp only [List.length_cons] at h
    rw [ih _ _ (by omega)]
    simp [store]
    omega

/-! ## Lines that do not assemble -/

theorem scan_unsigned_none (s : List Nat) (h : (s.head?.map isdigit).getD false = false) :
    scan_unsigned s = none := by
  cases s with
  | nil => rfl
  | cons c r =>
    simp only [List.head?_cons, Option.map_some', Option.getD_some] at h
    have hc : ¬ (48 ≤ c ∧ c ≤ 57) := by simpa [isdigit] using h
    have h48 : c ≠ 48 := by omega
    have hd : scan_digits 10 (c :: r) 0 0 = (0, 0) := by
      simp only [scan_digits, digit_value, hc, if_false]
      by_cases h1 : 97 ≤ c ∧ c ≤ 102
      · simp only [h1, and_self, if_true]
        rw [if_neg (by omega)]
      · simp only [h1, if_false]
        by_cases h2 : 65 ≤ c ∧ c ≤ 70
        · simp only [h2, and_self, if_true]
          rw [if_neg (by omega)]
        · simp only [h2, if_false]
    simp only [scan_unsigned, h48, if_false, hd, if_true]

theorem sscanf_none_of_not_integer (tok : List Nat) (h : begins_with_integer tok = false) :
    sscanf_SCNi8 tok = none := by
  unfold begins_with_integer at h
  unfold sscanf_SCNi8
  cases hd : tok.dropWhile isspace with
  | nil => rfl
  | cons c r =>
    rw [hd] at h
    simp only at h
    by_cases h45 : c = 45
    · subst h45
      simp only [true_or, if_true] at h
      have : scan_unsigned r = none := by
        apply scan_unsigned_none
        cases r with
        | nil => rfl
        | cons d t => simpa using h
      simp [this]
    · by_cases h43 : c = 43
      · subst h43
        simp only [or_true, if_true] at h
        have : scan_unsigned r = none := by
          apply scan_unsigned_none
          cases r with
          | nil => rfl
          | cons d t => simpa using h
        simp [this]
      · simp only [h45, h43, or_self, if_false] at h
        have : scan_unsigned (c :: r) = none := scan_unsigned_none _ (by simpa using h)
        simp [h45, h43, this]

theorem argument_values_some (ts : List (List Nat)) (vs : List Int)
    (h : argument_values ts = some vs) :
    vs.length = ts.length ∧ ∀ t ∈ ts, sscanf_SCNi8 t ≠ none := by
  induction ts generalizing vs with
  | nil =>
    simp [argument_values] at h
    subst h
    simp
  | cons t ts ih =>
    simp only [argument_values] at h
    cases hs : sscanf_SCNi8 t with
    | none => simp [hs] at h
    | some v =>
      rw [hs] at h
      cases ha : argument_values ts with
      | none => simp [ha] at h
      | some ws =>
        rw [ha] at h
        simp at h
        subst h
        obtain ⟨h1, h2⟩ := ih ws ha
        refine ⟨by simp [h1], ?_⟩
        intro t1 ht1
        simp only [List.mem_cons] at ht1
        rcases ht1 with rfl | ht1
        · simp [hs]
        · exact h2 t1 ht1

theorem mem_of_mem_splitOnP (p : Nat → Bool) (l : List Nat) :
    ∀ t ∈ l.splitOnP p, ∀ c ∈ t, c ∈ l := by
  induction l with
  | nil => simp
  | cons x xs ih =>
    intro t ht c hc
    rw [List.splitOnP_cons] at ht
    split_ifs at ht with hp
    · simp only [List.mem_cons] at ht
      rcases ht with rfl | ht
      · simp at hc
      · exact List.mem_cons_of_mem _ (ih t ht c hc)
    · cases hsp : xs.splitOnP p with
      | nil => simp [hsp, List.modifyHead] at ht
      | cons hd tl =>
        rw [hsp] at ht ih
        simp only [List.modifyHead, List.mem_cons] at ht
        rcases ht with rfl | ht
        · simp only [List.mem_cons] at hc
          rcases hc with rfl | hc
          · exact List.mem_cons_self _ _
          · exact List.mem_cons_of_mem _ (ih hd (List.mem_cons_self _ _) c hc)
        · exact List.mem_cons_of_mem _ (ih t (List.mem_cons_of_mem _ ht) c hc)

theorem mem_of_mem_tokens (line : List Nat) : ∀ t ∈ tokens line, ∀ c ∈ t, c ∈ line := by
  intro t ht c hc
  unfold tokens at ht
  exact mem_of_mem_splitOnP _ line t (List.mem_filter.1 ht).1 c hc

theorem opname_to_opcode_none (opname : List Nat) (h0 : 0 ∉ opname) :
    opname_to_opcode opname = none ↔
      ∀ e ∈ opcode_to_disinfo, ¬ same_ignoring_case opname e.name := by
  rw [opname_to_opcode_cases opname h0, opcode_to_disinfo_eq]
  simp only [same_ignoring_case]
  simp [tolower]
  split_ifs <;> simp_all

theorem not_skipped_of_source_line (line : List Nat) (hs : is_source_line line)
    (hc : ¬ is_comment line) (hb : ¬ is_blank line) : ¬ is_skipped line := by
  intro h
  rcases h with h | h
  · exact hc h
  · apply hb
    cases line with
    | nil => simp at h
    | cons c t =>
      simp only [List.head?_cons, Option.some.injEq] at h
      subst h
      cases t with
      | nil => decide
      | cons d t => simp [is_source_line, List.dropLast] at hs

/-! ## The assembler, file by file -/

theorem store_list_append (xs ys : List Nat) (b : Nat → Nat) (pc : Nat) :
    store_list b pc (xs ++ ys) = store_list (store_list b pc xs) (pc + xs.length) ys := by
  induction xs generalizing b pc with
  | nil => rfl
  | cons x xs ih =>
    rw [List.cons_append]
    simp only [store_list, List.length_cons]
    rw [ih]
    have e : pc + 1 + xs.length = pc + (xs.length + 1) := by omega
    rw [e]

theorem emitted_store_list (b : Nat → Nat) (vs : List Nat) :
    emitted (store_list b 0 vs) vs.length = vs := by
  apply List.ext_getElem
  · simp [emitted]
  · intro k h1 h2
    have := store_list_at vs b 0 k h2
    simp only [Nat.zero_add] at this
    simp [emitted, this]

theorem compile_lines_eq (lines : List (List Nat)) (b : Nat → Nat) (pc : Nat)
    (b1 : Nat → Nat) (pc1 : Nat) (h : compile_lines lines b pc = some (b1, pc1)) :
    (∀ l ∈ (lines.map c_string).filter (fun l => decide (¬ is_skipped l)),
        instruction_bytes l ≠ none) ∧
      b1 = store_list b pc
        (((lines.map c_string).filter (fun l => decide (¬ is_skipped l))).filterMap
          instruction_bytes).flatten ∧
      pc1 = pc + (((lines.map c_string).filter (fun l => decide (¬ is_skipped l))).filterMap
          instruction_bytes).flatten.length ∧
      (pc ≤ MAX_CODE_LEN → pc1 ≤ MAX_CODE_LEN) := by
  induction lines generalizing b pc with
  | nil =>
    simp only [compile_lines, Option.some.injEq, Prod.mk.injEq] at h
    obtain ⟨rfl, rfl⟩ := h
    simp [store_list]
  | cons line rest ih =>
    simp only [compile_lines] at h
    rw [compile_line_eq] at h
    by_cases hsk : is_skipped (c_string line)
    · simp only [hsk, if_true] at h
      by_cases hpc : pc ≤ MAX_CODE_LEN
      · simp only [hpc, if_true] at h
        obtain ⟨h1, h2, h3, h4⟩ := ih b pc h
        simp only [List.map_cons, List.filter_cons, hsk, not_true_eq_false, decide_False]
        exact ⟨h1, h2, h3, fun _ => h4 hpc⟩
      · simp [hpc] at h
    · simp only [hsk, if_false] at h
      cases hb : instruction_bytes (c_string line) with
      | none => simp [hb] at h
      | some bs =>
        simp only [hb, Option.map_some'] at h
        by_cases hpc : pc + bs.length ≤ MAX_CODE_LEN
        · simp only [hpc, if_true] at h
          obtain ⟨h1, h2, h3, h4⟩ := ih _ _ h
          simp only [List.map_cons, List.filter_cons, hsk, not_false_eq_true, decide_True,
            if_true, List.filterMap_cons, hb, List.flatten_cons, List.length_append]
          refine ⟨?_, ?_, ?_, fun _ => h4 hpc⟩
          · intro l hl
            simp only [List.mem_cons] at hl
            rcases hl with rfl | hl
            · simp [hb]
            · exact h1 l hl
          · rw [store_list_append]
            exact h2
          · omega
        · simp [hpc] at h

theorem instruction_bytes_spec (line bs : List Nat) (h : instruction_bytes line = some bs) :
    ∃ op args e, bs = op :: args ∧ op < OP_NUMBER_OF_OPS ∧ opcode_to_disinfo[op]? = some e ∧
      args.length = e.num_args ∧ ∀ a ∈ args, a < 256 := by
  unfold instruction_bytes at h
  cases ht : tokens line with
  | nil => simp [ht] at h
  | cons m ts =>
    simp only [ht] at h
    cases ho : opname_to_opcode (m.filter (fun c => !isspace c)) with
    | none => simp [ho] at h
    | some opn =>
      obtain ⟨op, n⟩ := opn
      simp only [ho] at h
      obtain ⟨hlt, e, he, hn, _⟩ := opname_to_opcode_spec _ _ _ ho
      cases ha : argument_values ts with
      | none => simp [ha] at h
      | some vs =>
        simp only [ha] at h
        split_ifs at h with hl
        simp only [Option.some.injEq] at h
        refine ⟨op, vs.map to_uint8, e, h.symm, hlt, he, by simp [hl, hn], ?_⟩
        intro a ha
        obtain ⟨v, _, rfl⟩ := List.mem_map.1 ha
        unfold to_uint8
        omega

theorem compile_file_spec (heap : Nat → Nat) (file : List Nat) (bytecode : Nat → Nat) (pc : Nat)
    (h : compile_file heap file = some (bytecode, pc)) :
    (∀ l ∈ instruction_lines file, instruction_bytes l ≠ none) ∧
      bytecode = store_list heap 0 (program file).flatten ∧
      pc = (program file).flatten.length ∧
      emitted bytecode pc = (program file).flatten ∧
      (program file).length = (instruction_lines file).length ∧
      pc ≤ MAX_CODE_LEN := by
  unfold compile_file at h
  obtain ⟨h1, h2, h3, h4⟩ := compile_lines_eq _ _ _ _ _ h
  simp only [Nat.zero_add] at h3
  refine ⟨h1, h2, h3, ?_, ?_, h4 (by decide)⟩
  · rw [h2, h3]
    exact emitted_store_list _ _
  · unfold program
    have : ∀ (ls : List (List Nat)), (∀ l ∈ ls, instruction_bytes l ≠ none) →
        (ls.filterMap instruction_bytes).length = ls.length := by
      intro ls
      induction ls with
      | nil => simp
      | cons l ls ih =>
        intro hl
        cases hb : instruction_bytes l with
        | none => exact absurd hb (hl l (List.mem_cons_self _ _))
        | some bs =>
          simp [List.filterMap_cons, hb, ih (fun x hx => hl x (List.mem_cons_of_mem _ hx))]
    exact this _ h1

theorem program_spec (file : List Nat) :
    ∀ bs ∈ program file, ∃ l ∈ instruction_lines file, instruction_bytes l = some bs := by
  intro bs hbs
  unfold program at hbs
  obtain ⟨l, hl, hb⟩ := List.mem_filterMap.1 hbs
  exact ⟨l, hl, hb⟩

/-! ## What `write_file` writes -/

theorem strlen_from_eq (s : Nat → Nat) (z : Nat) (hz : s z = 0) :
    ∀ (fuel i : Nat), i ≤ z → z < i + fuel → (∀ j, i ≤ j → j < z → s j ≠ 0) →
      strlen_from s fuel i = some z := by
  intro fuel
  induction fuel with
  | zero => intro i h1 h2; omega
  | succ fuel ih =>
    intro i h1 h2 h3
    simp only [strlen_from]
    by_cases hi : i = z
    · subst hi
      simp [hz]
    · rw [if_neg (h3 i (le_refl _) (by omega))]
      exact ih (i + 1) (by omega) (by omega) (fun j hj1 hj2 => h3 j (by omega) hj2)

theorem write_file_eq (bytecode : Nat → Nat) (z : Nat) (h0 : 0 < z) (hlt : z < MAX_CODE_LEN)
    (hz : bytecode z = 0) (hnz : ∀ j < z, bytecode j ≠ 0) :
    write_file bytecode = some (emitted bytecode z) := by
  unfold write_file strlen
  rw [strlen_from_eq bytecode z hz MAX_CODE_LEN 0 (by omega) (by omega) (fun j _ hj => hnz j hj)]
  obtain ⟨k, rfl⟩ : ∃ k, z = k + 1 := ⟨z - 1, by omega⟩
  rfl

theorem mem_emitted (bytecode : Nat → Nat) (pc j : Nat) (h : j < pc) :
    bytecode j ∈ emitted bytecode pc := by
  unfold emitted
  exact List.mem_map.2 ⟨j, List.mem_range.2 h, rfl⟩

/-! ## What the disassembler prints and accesses -/

set_option maxRecDepth 100000 in
theorem print_d_byte : ∀ n : Fin 256, 10 ∉ print_d n.val := by
  decide

theorem table_names_no_newline : ∀ e ∈ opcode_to_disinfo, 10 ∉ e.name := by
  rw [opcode_to_disinfo_eq]
  decide

theorem count_instruction_text (op : Nat) (args : List Nat) (e : disinfo)
    (he : opcode_to_disinfo[op]? = some e) (hb : ∀ a ∈ args, a < 256) :
    (instruction_text (op :: args)).count 10 = 1 := by
  have hn : 10 ∉ e.name := table_names_no_newline e (List.mem_iff_getElem?.2 ⟨op, he⟩)
  have ha : 10 ∉ (args.map (fun a => 32 :: print_d a)).flatten := by
    intro hm
    obtain ⟨l, hl, h10⟩ := List.mem_flatten.1 hm
    obtain ⟨a, ha, rfl⟩ := List.mem_map.1 hl
    simp only [List.mem_cons] at h10
    rcases h10 with h10 | h10
    · omega
    · exact print_d_byte ⟨a, hb a ha⟩ h10
  simp only [instruction_text, he, List.count_append, List.count_eq_zero_of_not_mem hn,
    List.count_eq_zero_of_not_mem ha]
  simp

theorem count_program_text (prog : List (List Nat))
    (h : ∀ ins ∈ prog, ∃ op args e, ins = op :: args ∧ opcode_to_disinfo[op]? = some e ∧
      ∀ a ∈ args, a < 256) :
    ((prog.map instruction_text).flatten).count 10 = prog.length := by
  induction prog with
  | nil => simp
  | cons ins prog ih =>
    obtain ⟨op, args, e, rfl, he, hb⟩ := h _ (List.mem_cons_self _ _)
    simp only [List.map_cons, List.flatten_cons, List.count_append, List.length_cons]
    rw [count_instruction_text op args e he hb, ih (fun i hi => h i (List.mem_cons_of_mem _ hi))]
    omega

theorem program_accesses_in_bounds (prog : List (List Nat)) (offset : Nat)
    (h : ∀ ins ∈ prog, ∃ op args, ins = op :: args ∧ op < OP_NUMBER_OF_OPS) :
    ∀ a ∈ program_accesses offset prog, in_bounds (offset + prog.flatten.length + 1) a := by
  induction prog generalizing offset with
  | nil =>
    intro a ha
    simp only [program_accesses, List.mem_singleton] at ha
    subst ha
    simp [in_bounds]
  | cons ins prog ih =>
    obtain ⟨op, args, rfl, hop⟩ := h _ (List.mem_cons_self _ _)
    intro a ha
    simp only [program_accesses, List.mem_append] at ha
    simp only [List.flatten_cons, List.length_append, List.length_cons]
    rcases ha with ha | ha
    · simp only [instruction_accesses, List.mem_append, List.mem_cons, List.mem_singleton,
        List.mem_map, List.mem_range, List.not_mem_nil, or_false] at ha
      rcases ha with (rfl | rfl | rfl) | ⟨k, hk, rfl⟩
      · simp only [in_bounds]; omega
      · simp only [in_bounds]; omega
      · simpa only [in_bounds] using hop
      · simp only [in_bounds]; omega
    · have := ih (offset + (op :: args).length) (fun i hi => h i (List.mem_cons_of_mem _ hi)) a ha
      simp only [List.length_cons] at this
      have e : offset + (args.length + 1) + prog.flatten.length + 1
          = offset + (args.length + 1 + prog.flatten.length) + 1 := by omega
      rw [← e]
      exact this

theorem length_le_flatten (prog : List (List Nat)) (h : ∀ ins ∈ prog, ins ≠ []) :
    prog.length ≤ prog.flatten.length := by
  induction prog with
  | nil => simp
  | cons ins prog ih =>
    have h1 := h ins (List.mem_cons_self _ _)
    have h2 := ih (fun i hi => h i (List.mem_cons_of_mem _ hi))
    have h3 : 0 < ins.length := List.length_pos.2 h1
    simp only [List.length_cons, List.flatten_cons, List.length_append]
    omega

theorem well_formed_ne_nil (ins : List Nat) (h : well_formed ins) : ins ≠ [] := by
  obtain ⟨op, args, e, rfl, _⟩ := h
  simp

/-- The disassembly of a sequence of encoded instructions followed by a byte 0. -/
theorem disassemble_eq (prog : List (List Nat)) (rest : List Nat)
    (hwf : ∀ ins ∈ prog, well_formed ins) :
    disassemble (prog.flatten ++ 0 :: rest) =
      { stdout := (prog.map instruction_text).flatten,
        log := program_accesses 0 prog,
        status := Status.ok } := by
  unfold disassemble
  have hl := length_le_flatten prog (fun i hi => well_formed_ne_nil i (hwf i hi))
  rw [disassemble_loop_eq _ prog rest hwf _ 0 _
    (by simp only [List.length_append, List.length_cons]; omega) rfl (by simp)]
  simp

/-! ## The accesses of the disassembler on any buffer -/

theorem print_arg_loop_log_mono (bytecode : List Nat) (n off : Nat) (p : Proc) :
    ∀ a ∈ p.log, a ∈ (print_arg_loop bytecode n off p).log := by
  induction n generalizing off p with
  | zero => intro a ha; simpa [print_arg_loop] using ha
  | succ n ih =>
    intro a ha
    simp only [print_arg_loop]
    cases bytecode[off]? with
    | none => simp [ha]
    | some b =>
      simp only
      apply ih
      simp [ha]

theorem print_arg_loop_log (bytecode : List Nat) (n off : Nat) (p : Proc) :
    ∀ a ∈ (print_arg_loop bytecode n off p).log,
      a ∈ p.log ∨ ∃ k, a = Access.arg k ∧ off ≤ k ∧ k < off + n := by
  induction n generalizing off p with
  | zero => intro a ha; left; simpa [print_arg_loop] using ha
  | succ n ih =>
    intro a ha
    simp only [print_arg_loop] at ha
    cases hb : bytecode[off]? with
    | none =>
      simp only [hb, List.mem_append, List.mem_singleton] at ha
      rcases ha with ha | rfl
      · exact Or.inl ha
      · exact Or.inr ⟨off, rfl, le_refl _, by omega⟩
    | some b =>
      simp only [hb] at ha
      rcases ih _ _ a ha with h | ⟨k, rfl, h1, h2⟩
      · simp only [List.mem_append, List.mem_singleton] at h
        rcases h with h | rfl
        · exact Or.inl h
        · exact Or.inr ⟨off, rfl, le_refl _, by omega⟩
      · exact Or.inr ⟨k, rfl, by omega, by omega⟩

theorem print_arg_loop_reaches (bytecode : List Nat) (z : Nat) (hz : z < bytecode.length)
    (n off : Nat) (p : Proc) (h1 : off ≤ z) (h2 : z < off + n) :
    Access.arg z ∈ (print_arg_loop bytecode n off p).log := by
  induction n generalizing off p with
  | zero => omega
  | succ n ih =>
    simp only [print_arg_loop]
    cases hb : bytecode[off]? with
    | none =>
      have := List.getElem?_eq_none_iff.1 hb
      omega
    | some b =>
      simp only
      by_cases hoz : off = z
      · subst hoz
        apply print_arg_loop_log_mono
        simp
      · exact ih _ _ (by omega) (by omega)

theorem disassemble_loop_log_mono (bytecode : List Nat) (fuel offset : Nat) (p : Proc) :
    ∀ a ∈ p.log, a ∈ (disassemble_loop bytecode fuel offset p).log := by
  induction fuel generalizing offset p with
  | zero => intro a ha; simpa [disassemble_loop] using ha
  | succ fuel ih =>
    intro a ha
    simp only [disassemble_loop]
    cases hb : bytecode[offset]? with
    | none => simp [ha]
    | some b =>
      simp only
      by_cases hb0 : b = 0
      · simp [hb0, ha]
      · simp only [hb0, if_false]
        have hp1 : a ∈ (print_instruction bytecode offset
            { p with log := p.log ++ [Access.cond offset] }).2.log := by
          simp only [print_instruction, hb]
          cases opcode_to_disinfo[b]? with
          | none => simp [ha]
          | some e =>
            simp only [print_arg]
            apply print_arg_loop_log_mono
            simp [ha]
        split_ifs
        · exact ih _ _ a hp1
        · exact hp1

theorem disassemble_loop_below (bytecode : List Nat) (z : Nat) (hz : bytecode[z]? = some 0)
    (fuel offset : Nat) (p : Proc) (ho : offset ≤ z) :
    Access.arg z ∈ (disassemble_loop bytecode fuel offset p).log ∨
      ∀ a ∈ (disassemble_loop bytecode fuel offset p).log, a ∈ p.log ∨ below z a := by
  have hzl : z < bytecode.length := (List.getElem?_eq_some_iff.1 hz).1
  induction fuel generalizing offset p with
  | zero => right; intro a ha; left; simpa [disassemble_loop] using ha
  | succ fuel ih =>
    simp only [disassemble_loop]
    cases hb : bytecode[offset]? with
    | none =>
      right
      intro a ha
      simp only [List.mem_append, List.mem_singleton] at ha
      rcases ha with ha | rfl
      · exact Or.inl ha
      · exact Or.inr trivial
    | some b =>
      simp only
      by_cases hb0 : b = 0
      · right
        intro a ha
        simp only [hb0, if_true, List.mem_append, List.mem_singleton] at ha
        rcases ha with ha | rfl
        · exact Or.inl ha
        · exact Or.inr trivial
      · simp only [hb0, if_false]
        have hoz : offset < z := by
          rcases Nat.lt_or_ge offset z with h | h
          · exact h
          · have : offset = z := by omega
            subst this
            rw [hz] at hb
            simp only [Option.some.injEq] at hb
            exact absurd hb.symm hb0
        simp only [print_instruction, hb]
        cases he : opcode_to_disinfo[b]? with
        | none =>
          right
          intro a ha
          simp only [reduceCtorEq, if_false, List.mem_append,
            List.mem_cons, List.mem_singleton, List.not_mem_nil, or_false] at ha
          rcases ha with (ha | rfl) | rfl | rfl
          · exact Or.inl ha
          · exact Or.inr trivial
          · exact Or.inr hoz
          · exact Or.inr trivial
        | some e =>
          simp only [print_arg]
          by_cases hn : z < offset + 1 + e.num_args
          · left
            have hr := print_arg_loop_reaches bytecode z hzl e.num_args (offset + 1)
              { stdout := p.stdout ++ e.name,
                log := p.log ++ [Access.cond offset] ++ [Access.opcode offset, Access.table b],
                status := p.status } (by omega) hn
            split_ifs
            · exact disassemble_loop_log_mono _ _ _ _ _ hr
            · exact hr
          · have hlog := print_arg_loop_log bytecode e.num_args (offset + 1)
              { stdout := p.stdout ++ e.name,
                log := p.log ++ [Access.cond offset] ++ [Access.opcode offset, Access.table b],
                status := p.status }
            have hgood : ∀ a ∈ (print_arg_loop bytecode e.num_args (offset + 1)
                { stdout := p.stdout ++ e.name,
                  log := p.log ++ [Access.cond offset] ++ [Access.opcode offset, Access.table b],
                  status := p.status }).log, a ∈ p.log ∨ below z a := by
              intro a ha
              rcases hlog a ha with h | ⟨k, rfl, _, hk⟩
              · simp only [List.mem_append, List.mem_cons, List.mem_singleton,
                  List.not_mem_nil, or_false] at h
                rcases h with (h | rfl) | rfl | rfl
                · exact Or.inl h
                · exact Or.inr trivial
                · exact Or.inr hoz
                · exact Or.inr trivial
              · right
                show k < z
                omega
            split_ifs
            · rcases ih (offset + 1 + e.num_args) _ (by omega) with h | h
              · exact Or.inl h
              · right
                intro a ha
                rcases h a ha with h1 | h1
                · exact hgood a h1
                · exact Or.inr h1
            · exact Or.inr hgood

/-! ## The listing of a source -/

theorem toupper_tolower (c : Nat) : toupper (tolower c) = toupper c := by
  unfold toupper tolower
  split_ifs <;> omega

theorem table_names_upper : ∀ e ∈ opcode_to_disinfo,
    (e.name.map tolower).map toupper = e.name ∧ 0 ∉ e.name := by
  rw [opcode_to_disinfo_eq]
  decide

theorem upper_of_same {m : List Nat} {e : disinfo} (he : e ∈ opcode_to_disinfo)
    (h : m.map tolower = e.name.map tolower) : m.map toupper = e.name := by
  have h1 : m.map toupper = (m.map tolower).map toupper := by
    rw [List.map_map]
    apply List.map_congr_left
    intro c _
    exact (toupper_tolower c).symm
  rw [h1, h, (table_names_upper e he).1]

theorem argument_values_eq (ts : List (List Nat)) (vs : List Int)
    (h : argument_values ts = some vs) :
    vs = ts.map (fun t => (sscanf_SCNi8 t).getD 0) := by
  induction ts generalizing vs with
  | nil =>
    simp [argument_values] at h
    subst h
    rfl
  | cons t ts ih =>
    simp only [argument_values] at h
    cases hs : sscanf_SCNi8 t with
    | none => simp [hs] at h
    | some v =>
      rw [hs] at h
      cases ha : argument_values ts with
      | none => simp [ha] at h
      | some ws =>
        rw [ha] at h
        simp at h
        subst h
        simp [hs, ih ws ha]

theorem instruction_text_eq_listing (line bs : List Nat) (h0 : 0 ∉ line)
    (h : instruction_bytes line = some bs)
    (hab : ¬ same_ignoring_case (line_mnemonic line) (cstr "ABORT")) :
    instruction_text bs = listing_line line ∧ well_formed bs := by
  unfold instruction_bytes at h
  unfold listing_line line_mnemonic line_arguments
  unfold line_mnemonic at hab
  cases ht : tokens line with
  | nil => simp [ht] at h
  | cons m ts =>
    simp only [ht] at h
    rw [ht] at hab
    simp only [List.headD_cons, List.tail_cons] at hab ⊢
    have hm0 : 0 ∉ m.filter (fun c => !isspace c) := by
      intro hm
      exact h0 (mem_of_mem_tokens line m (by simp [ht]) 0 (List.mem_filter.1 hm).1)
    cases ho : opname_to_opcode (m.filter (fun c => !isspace c)) with
    | none => simp [ho] at h
    | some opn =>
      obtain ⟨op, n⟩ := opn
      simp only [ho] at h
      obtain ⟨hlt, e, he, hn, hcmp⟩ := opname_to_opcode_spec _ _ _ ho
      have hemem : e ∈ opcode_to_disinfo := List.mem_iff_getElem?.2 ⟨op, he⟩
      have hlow := map_eq_of_strcasecmp _ _ (table_names_upper e hemem).2 hm0 hcmp
      cases ha : argument_values ts with
      | none => simp [ha] at h
      | some vs =>
        simp only [ha] at h
        split_ifs at h with hl
        simp only [Option.some.injEq] at h
        subst h
        constructor
        · simp only [instruction_text, he]
          rw [upper_of_same hemem hlow.symm, argument_values_eq ts vs ha]
          simp [List.map_map, Function.comp_def]
        · refine ⟨op, vs.map to_uint8, e, rfl, ?_, he, by simp [hl, hn]⟩
          intro hop
          subst hop
          apply hab
          unfold same_ignoring_case
          rw [← hlow]
          rw [opcode_to_disinfo_eq] at he
          simp at he
          subst he
          decide

theorem program_text_eq_listing (ls : List (List Nat))
    (h0 : ∀ l ∈ ls, 0 ∉ l) (hs : ∀ l ∈ ls, instruction_bytes l ≠ none)
    (hab : ∀ l ∈ ls, ¬ same_ignoring_case (line_mnemonic l) (cstr "ABORT")) :
    (ls.filterMap instruction_bytes).map instruction_text = ls.map listing_line ∧
      ∀ ins ∈ ls.filterMap instruction_bytes, well_formed ins := by
  induction ls with
  | nil => simp
  | cons l ls ih =>
    obtain ⟨ih1, ih2⟩ := ih (fun x hx => h0 x (List.mem_cons_of_mem _ hx))
      (fun x hx => hs x (List.mem_cons_of_mem _ hx))
      (fun x hx => hab x (List.mem_cons_of_mem _ hx))
    cases hb : instruction_bytes l with
    | none => exact absurd hb (hs l (List.mem_cons_self _ _))
    | some bs =>
      obtain ⟨h1, h2⟩ := instruction_text_eq_listing l bs (h0 l (List.mem_cons_self _ _)) hb
        (hab l (List.mem_cons_self _ _))
      simp only [List.filterMap_cons, hb, List.map_cons, h1, ih1, List.mem_cons, true_and]
      rintro ins (rfl | hins)
      · exact h2
      · exact ih2 ins hins

theorem source_lines_no_nul (file : List Nat) : ∀ l ∈ source_lines file, 0 ∉ l := by
  intro l hl h0
  unfold source_lines at hl
  obtain ⟨buf, _, rfl⟩ := List.mem_map.1 hl
  unfold c_string at h0
  have := List.mem_takeWhile_imp h0
  simp at this

/-! ## The loop of the disassembler ends -/

theorem print_arg_loop_status (bytecode : List Nat) (n off : Nat) (p : Proc) :
    (print_arg_loop bytecode n off p).status = p.status ∨
      (print_arg_loop bytecode n off p).status = Status.undefined := by
  induction n generalizing off p with
  | zero => left; simp [print_arg_loop]
  | succ n ih =>
    simp only [print_arg_loop]
    cases hb : bytecode[off]? with
    | none => right; rfl
    | some b => exact ih _ _

theorem print_arg_loop_ok (bytecode : List Nat) (n off : Nat) (p : Proc)
    (h : (print_arg_loop bytecode n off p).status = Status.ok) :
    off + n ≤ bytecode.length ∨ n = 0 := by
  induction n generalizing off p with
  | zero => right; rfl
  | succ n ih =>
    simp only [print_arg_loop] at h
    cases hb : bytecode[off]? with
    | none => simp [hb] at h
    | some b =>
      have hlt : off < bytecode.length := (List.getElem?_eq_some_iff.1 hb).1
      simp only [hb] at h
      rcases ih _ _ h with h1 | h1
      · left; omega
      · left; omega

/-- The loop of `disassemble` ends within the iterations `disassemble` allows. -/
theorem disassemble_loop_total (bytecode : List Nat) (fuel offset : Nat) (p : Proc)
    (hp : p.status ≠ Status.out_of_fuel) (ho : offset ≤ bytecode.length)
    (hf : bytecode.length < offset + fuel) :
    (disassemble_loop bytecode fuel offset p).status ≠ Status.out_of_fuel := by
  induction fuel generalizing offset p with
  | zero => omega
  | succ fuel ih =>
    simp only [disassemble_loop]
    cases hb : bytecode[offset]? with
    | none => simp
    | some b =>
      simp only
      have hlt : offset < bytecode.length := (List.getElem?_eq_some_iff.1 hb).1
      by_cases hb0 : b = 0
      · simpa [hb0] using hp
      · simp only [hb0, if_false, print_instruction, hb]
        cases he : opcode_to_disinfo[b]? with
        | none => simp
        | some e =>
          simp only [print_arg]
          split_ifs with hs
          · apply ih
            · rw [hs]; simp
            · rcases print_arg_loop_ok _ _ _ _ hs with h2 | h2
              · omega
              · rw [h2]; omega
            · omega
          · rcases print_arg_loop_status bytecode e.num_args (offset + 1) _ with h1 | h
            · rw [h1]; exact hp
            · rw [h]; simp

/-- The function `disassemble` never runs out of the iterations it is given: on every buffer it
either returns or leaves the defined behaviour of C. -/
theorem disassemble_total (bytecode : List Nat) :
    (disassemble bytecode).status ≠ Status.out_of_fuel := by
  unfold disassemble
  exact disassemble_loop_total bytecode _ 0 _ (by simp) (Nat.zero_le _) (by omega)

/-! ## A line that fails makes the file fail -/

theorem compile_lines_none (l : List Nat)
    (hfail : ∀ (b : Nat → Nat) (pc : Nat), compile_line l b pc = none)
    (lines : List (List Nat)) (hl : l ∈ lines.map c_string) (b : Nat → Nat) (pc : Nat) :
    compile_lines lines b pc = none := by
  induction lines generalizing b pc with
  | nil => simp at hl
  | cons x rest ih =>
    simp only [compile_lines]
    cases hx : compile_line (c_string x) b pc with
    | none => rfl
    | some r =>
      obtain ⟨b1, pc1⟩ := r
      simp only [List.map_cons, List.mem_cons] at hl
      rcases hl with rfl | hl
      · rw [hfail] at hx
        cases hx
      · simp only
        split_ifs
        · exact ih hl b1 pc1
        · rfl

theorem instruction_bytes_none_of_mismatch (line : List Nat)
    (hs : is_source_line line) (hbad : argument_mismatch line) :
    instruction_bytes line = none := by
  unfold argument_mismatch line_mnemonic line_arguments at hbad
  unfold instruction_bytes
  cases ht : tokens line with
  | nil => rfl
  | cons m args =>
    rw [ht] at hbad
    simp only [List.headD_cons, List.tail_cons] at hbad
    have h0 : 0 ∉ m.filter (fun c => !isspace c) := by
      intro hm
      have h1 := (List.mem_filter.1 hm).1
      exact hs.2.1 (mem_of_mem_tokens line m (by simp [ht]) 0 h1)
    rcases hbad with hun | ⟨e, he, hsame, hargs⟩
    · simp only [(opname_to_opcode_none _ h0).2 hun]
    · obtain ⟨i, hi⟩ := List.mem_iff_getElem?.1 he
      have hlt : i < OP_NUMBER_OF_OPS := by
        have := (List.getElem?_eq_some_iff.1 hi).1
        rw [opcode_to_disinfo_eq] at this
        simpa [OP_NUMBER_OF_OPS] using this
      simp only [opname_to_opcode_of_same i e _ hlt hi hsame]
      cases ha : argument_values args with
      | none => rfl
      | some vs =>
        obtain ⟨h1, h2⟩ := argument_values_some args vs ha
        simp only
        rcases hargs with hlt | hgt | ⟨t, ht1, ht2⟩
        · rw [if_neg (by omega)]
        · rw [if_neg (by omega)]
        · exact absurd (sscanf_none_of_not_integer t ht2) (h2 t ht1)

/-! ## The claims -/

/-- C1, amended: for a line made of a mnemonic of the opcode table in any letter
case, followed by as many decimal integer tokens as the arity, each after a single
space, each without a leading zero and each of a value in [-128, 127], and by a
newline, `compile_line` stores the opcode value at `bytecode[pc]`, stores each
argument `v` as the byte `v mod 256` at the following indices in source order,
returns `pc + 1 + arity`, and leaves the bytes below `pc` as they were. -/
theorem C1_compile_line (i : Nat) (e : disinfo) (mnemonic : List Nat) (args : List (List Nat))
    (bytecode : Nat → Nat) (pc : Nat)
    (hi : i < OP_NUMBER_OF_OPS) (he : opcode_to_disinfo[i]? = some e)
    (hm : same_ignoring_case mnemonic e.name)
    (hlen : args.length = e.num_args)
    (htok : ∀ t ∈ args, is_decimal_token t ∧ no_leading_zero t ∧
      -128 ≤ token_value t ∧ token_value t ≤ 127) :
    ∃ bytecode1,
      compile_line (mnemonic ++ (args.map (fun t => 32 :: t)).flatten ++ [10])
          bytecode pc = some (bytecode1, pc + 1 + e.num_args) ∧
        bytecode1 pc = i ∧
        (∀ k (hk : k < args.length),
          ((bytecode1 (pc + 1 + k) : Nat) : Int) = token_value (args.get ⟨k, hk⟩) % 256) ∧
        ∀ j < pc, bytecode1 j = bytecode j := by
  have hmem : e ∈ opcode_to_disinfo := List.mem_iff_getElem?.2 ⟨i, he⟩
  have hch := same_name_chars hmem hm
  have hne := same_name_ne_nil hmem hm
  have hop := opname_to_opcode_of_same i e mnemonic hi he hm
  have h32 : 32 ∉ mnemonic := fun h => by have := hch 32 h; omega
  have hskip : ∀ r, ¬ is_skipped (mnemonic ++ r) := by
    intro r
    obtain ⟨c, t, rfl⟩ := List.exists_cons_of_ne_nil hne
    have := hch c (List.mem_cons_self _ _)
    simp [is_skipped]
    omega
  have hbytes : instruction_bytes (mnemonic ++ (args.map (fun t => 32 :: t)).flatten ++ [10])
      = some (i :: args.map (fun t => to_uint8 (token_value t))) := by
    have hn := table_num_args e hmem
    match args, hlen, htok with
    | [], hlen, _ =>
      have ht : tokens (mnemonic ++ [10]) = [mnemonic ++ [10]] :=
        tokens_of_no_space _ (by simp) (by simp [h32])
      simp [instruction_bytes, ht, (filter_mnemonic hch).1, hop, argument_values, ← hlen]
    | [t], hlen, htok =>
      obtain ⟨h1, h2, h3, h4⟩ := htok t (by simp)
      obtain ⟨hs, hsp, hd⟩ := sscanf_decimal_token t h1 h2 h3 h4
      have ht : tokens (mnemonic ++ 32 :: (t ++ [10])) = [mnemonic, t ++ [10]] := by
        rw [tokens_append_space _ _ hne h32, tokens_of_no_space _ (by simp) hsp]
      simp [instruction_bytes, ht, (filter_mnemonic hch).2, hop, argument_values, hs, ← hlen]
    | _ :: _ :: _, hlen, _ => simp at hlen; omega
  refine ⟨store_list bytecode pc (i :: args.map (fun t => to_uint8 (token_value t))),
    ?_, ?_, ?_, ?_⟩
  · rw [compile_line_eq, List.append_assoc, if_neg (hskip _), ← List.append_assoc, hbytes]
    simp [hlen]
    omega
  · have := store_list_at (i :: args.map (fun t => to_uint8 (token_value t))) bytecode pc 0
      (by simp)
    simpa using this
  · intro k hk
    have := store_list_at (i :: args.map (fun t => to_uint8 (token_value t))) bytecode pc (k + 1)
      (by simpa using hk)
    have e2 : pc + 1 + k = pc + (k + 1) := by omega
    rw [e2, this]
    simp only [List.getElem_cons_succ, List.getElem_map, List.get_eq_getElem]
    unfold to_uint8
    omega
  · intro j hj
    exact store_list_below _ _ _ _ hj

/-- C1 as stated fails: `010` and `08` are decimal integer tokens of the values 10
and 8, and the bytes stored for them are 8 and 0, since the conversion reads a
number that begins with `0` as octal. -/
theorem C1_counterexample :
    (is_decimal_token (cstr "010") ∧ token_value (cstr "010") = 10 ∧
      (compile_line (cstr "PUSHI 010\n") (fun _ => 0) 0).map (fun r => (r.1 0, r.1 1, r.2))
        = some (1, 8, 2)) ∧
    (is_decimal_token (cstr "08") ∧ token_value (cstr "08") = 8 ∧
      (compile_line (cstr "PUSHI 08\n") (fun _ => 0) 0).map (fun r => (r.1 0, r.1 1, r.2))
        = some (1, 0, 2)) := by
  decide

/-- C1, amended, at the lines `pUsHi -3`, `PUSHI +127` and `pop_res`: the bytes
stored are 1 and 253, 1 and 127, and 6. -/
theorem C1_compile_line_witness :
    (∃ bytecode1,
      compile_line (cstr "pUsHi -3\n") (fun _ => 9) 4 = some (bytecode1, 6) ∧
        bytecode1 4 = 1 ∧ bytecode1 5 = 253 ∧ bytecode1 3 = 9) ∧
    (∃ bytecode1,
      compile_line (cstr "PUSHI +127\n") (fun _ => 9) 0 = some (bytecode1, 2) ∧
        bytecode1 0 = 1 ∧ bytecode1 1 = 127) ∧
    (∃ bytecode1,
      compile_line (cstr "pop_res\n") (fun _ => 9) 2 = some (bytecode1, 3) ∧
        bytecode1 2 = 6 ∧ bytecode1 1 = 9) := by
  refine ⟨?_, ?_, ?_⟩
  · obtain ⟨b1, h1, h2, h3, h4⟩ := C1_compile_line 1 ⟨1, cstr "PUSHI"⟩ (cstr "pUsHi")
      [cstr "-3"] (fun _ => 9) 4 (by decide) (by decide) (by decide) (by decide) (by decide)
    have e : cstr "pUsHi" ++ ([cstr "-3"].map (fun t => 32 :: t)).flatten ++ [10]
        = cstr "pUsHi -3\n" := by decide
    rw [e] at h1
    have h5 : ((b1 5 : Nat) : Int)
        = token_value ([cstr "-3"].get ⟨0, by decide⟩) % 256 := h3 0 (by decide)
    have e5 : token_value ([cstr "-3"].get ⟨0, by decide⟩) % 256 = 253 := by decide
    rw [e5] at h5
    exact ⟨b1, h1, h2, by omega, h4 3 (by decide)⟩
  · obtain ⟨b1, h1, h2, h3, _⟩ := C1_compile_line 1 ⟨1, cstr "PUSHI"⟩ (cstr "PUSHI")
      [cstr "+127"] (fun _ => 9) 0 (by decide) (by decide) (by decide) (by decide) (by decide)
    have e : cstr "PUSHI" ++ ([cstr "+127"].map (fun t => 32 :: t)).flatten ++ [10]
        = cstr "PUSHI +127\n" := by decide
    rw [e] at h1
    have h5 : ((b1 1 : Nat) : Int)
        = token_value ([cstr "+127"].get ⟨0, by decide⟩) % 256 := h3 0 (by decide)
    have e5 : token_value ([cstr "+127"].get ⟨0, by decide⟩) % 256 = 127 := by decide
    rw [e5] at h5
    exact ⟨b1, h1, h2, by omega⟩
  · obtain ⟨b1, h1, h2, _, h4⟩ := C1_compile_line 6 ⟨0, cstr "POP_RES"⟩ (cstr "pop_res")
      [] (fun _ => 9) 2 (by decide) (by decide) (by decide) (by decide) (by decide)
    have e : cstr "pop_res" ++ (([] : List (List Nat)).map (fun t => 32 :: t)).flatten ++ [10]
        = cstr "pop_res\n" := by decide
    rw [e] at h1
    exact ⟨b1, h1, h2, h4 1 (by decide)⟩

/-- C2, amended: for a source line that is neither a comment nor blank,
`compile_line` ends in `exit(EXIT_FAILURE)`, returning no program counter, whenever
the first token of the line, its white space removed, is the name of no opcode up
to letter case, or the line has fewer argument tokens than the arity of its
opcode, or more, or one of its argument tokens does not begin, after white space
and one optional sign, with a decimal digit; and `compile_file` returns no buffer
for a file that has such a line. -/
theorem C2_compile_line_fails (line : List Nat) (bytecode : Nat → Nat) (pc : Nat)
    (hs : is_source_line line) (hc : ¬ is_comment line) (hb : ¬ is_blank line)
    (hbad : argument_mismatch line) :
    compile_line line bytecode pc = none ∧
      ∀ (heap : Nat → Nat) (file : List Nat), line ∈ source_lines file →
        compile_file heap file = none := by
  have hfail : ∀ (b : Nat → Nat) (n : Nat), compile_line line b n = none := by
    intro b n
    rw [compile_line_eq, if_neg (not_skipped_of_source_line line hs hc hb),
      instruction_bytes_none_of_mismatch line hs hbad]
    rfl
  exact ⟨hfail bytecode pc, fun heap file hl => compile_lines_none line hfail _ hl heap 0⟩

/-- C2 as stated fails: in `PUSHI 5x` and `PUSHI 1.5` the argument token is no
integer, and in `PU<tab>SHI 5` the first token is the name of no opcode, yet
`compile_line` accepts the three lines and stores `PUSHI 5`, `PUSHI 1` and
`PUSHI 5`: the conversion reads the integer a token begins with, and the white
space inside the first token is removed before the name is looked up. -/
theorem C2_counterexample :
    (is_source_line (cstr "PUSHI 5x\n") ∧ ¬ is_comment (cstr "PUSHI 5x\n") ∧
      ¬ is_blank (cstr "PUSHI 5x\n") ∧
      (line_arguments (cstr "PUSHI 5x\n")).map (fun t => t.filter (fun c => !isspace c))
        = [cstr "5x"] ∧
      ¬ is_integer_literal (cstr "5x") ∧
      (compile_line (cstr "PUSHI 5x\n") (fun _ => 0) 0).map (fun r => (r.1 0, r.1 1, r.2))
        = some (1, 5, 2)) ∧
    (is_source_line (cstr "PUSHI 1.5\n") ∧
      (line_arguments (cstr "PUSHI 1.5\n")).map (fun t => t.filter (fun c => !isspace c))
        = [cstr "1.5"] ∧
      ¬ is_integer_literal (cstr "1.5") ∧
      (compile_line (cstr "PUSHI 1.5\n") (fun _ => 0) 0).map (fun r => (r.1 0, r.1 1, r.2))
        = some (1, 1, 2)) ∧
    (is_source_line (cstr "PU\tSHI 5\n") ∧ ¬ is_comment (cstr "PU\tSHI 5\n") ∧
      ¬ is_blank (cstr "PU\tSHI 5\n") ∧
      (tokens (cstr "PU\tSHI 5\n")).head? = some (cstr "PU\tSHI") ∧
      (∀ e ∈ opcode_to_disinfo, ¬ same_ignoring_case (cstr "PU\tSHI") e.name) ∧
      (compile_line (cstr "PU\tSHI 5\n") (fun _ => 0) 0).map (fun r => (r.1 0, r.1 1, r.2))
        = some (1, 5, 2)) := by
  have h1 : ¬ is_integer_literal (cstr "5x") := by
    have e : token_digits (cstr "5x") = [53, 120] := by decide
    intro h
    rcases h with h | ⟨r, h, _⟩
    · exact absurd h (by decide)
    · rw [e] at h
      simp at h
  have h2 : ¬ is_integer_literal (cstr "1.5") := by
    have e : token_digits (cstr "1.5") = [49, 46, 53] := by decide
    intro h
    rcases h with h | ⟨r, h, _⟩
    · exact absurd h (by decide)
    · rw [e] at h
      simp at h
  exact ⟨⟨by decide, by decide, by decide, by decide, h1, by decide⟩,
    ⟨by decide, by decide, h2, by decide⟩,
    ⟨by decide, by decide, by decide, by decide, by decide, by decide⟩⟩

/-- C2, amended, at one line for each kind of mismatch: an unknown mnemonic, a missing
argument, an argument too many, an argument that is no number. -/
theorem C2_compile_line_fails_witness :
    (is_source_line (cstr "PUSHX 1\n") ∧ argument_mismatch (cstr "PUSHX 1\n") ∧
      compile_line (cstr "PUSHX 1\n") (fun _ => 0) 0 = none) ∧
    (is_source_line (cstr "PUSHI\n") ∧ argument_mismatch (cstr "PUSHI\n") ∧
      compile_line (cstr "PUSHI\n") (fun _ => 0) 0 = none) ∧
    (is_source_line (cstr "add 5\n") ∧ argument_mismatch (cstr "add 5\n") ∧
      compile_line (cstr "add 5\n") (fun _ => 0) 0 = none) ∧
    (is_source_line (cstr "PUSHI abc\n") ∧ argument_mismatch (cstr "PUSHI abc\n") ∧
      compile_line (cstr "PUSHI abc\n") (fun _ => 0) 0 = none) :=
  ⟨⟨by decide, by decide,
      (C2_compile_line_fails _ _ _ (by decide) (by decide) (by decide) (by decide)).1⟩,
    ⟨by decide, by decide,
      (C2_compile_line_fails _ _ _ (by decide) (by decide) (by decide) (by decide)).1⟩,
    ⟨by decide, by decide,
      (C2_compile_line_fails _ _ _ (by decide) (by decide) (by decide) (by decide)).1⟩,
    ⟨by decide, by decide,
      (C2_compile_line_fails _ _ _ (by decide) (by decide) (by decide) (by decide)).1⟩⟩

/-- C3, amended: for every source text the assembler accepts in which no
instruction line has the mnemonic `ABORT`, disassembling the bytes emitted, ended
by a zero byte as `read_file` does, returns normally and prints, in source order,
one line for each line of the source that is not passed over: the mnemonic of the
line in upper case followed, after a space each, by the decimal value of each
argument byte, that is the argument reduced modulo 256. -/
theorem C3_listing (heap : Nat → Nat) (file : List Nat) (bytecode : Nat → Nat) (pc : Nat)
    (h : compile_file heap file = some (bytecode, pc))
    (hab : ∀ l ∈ instruction_lines file,
      ¬ same_ignoring_case (line_mnemonic l) (cstr "ABORT")) :
    (disassemble (read_file (emitted bytecode pc))).status = Status.ok ∧
      (disassemble (read_file (emitted bytecode pc))).stdout =
        ((instruction_lines file).map listing_line).flatten := by
  obtain ⟨h1, _, _, h4, _, _⟩ := compile_file_spec heap file bytecode pc h
  have h0 : ∀ l ∈ instruction_lines file, 0 ∉ l := by
    intro l hl
    unfold instruction_lines at hl
    exact source_lines_no_nul file l (List.mem_filter.1 hl).1
  obtain ⟨ht, hwf⟩ := program_text_eq_listing (instruction_lines file) h0 h1 hab
  unfold read_file
  rw [h4, disassemble_eq (program file) [] hwf]
  refine ⟨rfl, ?_⟩
  simp only
  unfold program
  rw [ht]

/-- C3 as stated fails: `ABORT` is assembled to the byte 0, at which the
disassembler stops, so that nothing is printed for a source of one instruction;
and the argument `-1` comes back as `255`. -/
theorem C3_counterexample :
    ((compile_file (fun _ => 0) (cstr "ABORT\n")).map
        (fun r => (disassemble (read_file (emitted r.1 r.2))).stdout) = some [] ∧
      source_lines_up_to_space (cstr "ABORT\n") = [[cstr "ABORT"]] ∧
      lines_up_to_space [] ≠ source_lines_up_to_space (cstr "ABORT\n")) ∧
    ((compile_file (fun _ => 0) (cstr "PUSHI -1\n")).map
        (fun r => (disassemble (read_file (emitted r.1 r.2))).stdout)
          = some (cstr "PUSHI 255\n") ∧
      lines_up_to_space (cstr "PUSHI 255\n") ≠
        source_lines_up_to_space (cstr "PUSHI -1\n")) := by
  decide

/-- C3, amended, at a source with a comment, an empty line, a mnemonic in lower
case and a negative argument. -/
theorem C3_listing_witness :
    ∃ bytecode pc,
      compile_file (fun _ => 0) (cstr "PUSHI 5\n# c\n\nadd\nPUSHI -1\nDONE\n")
        = some (bytecode, pc) ∧
      (disassemble (read_file (emitted bytecode pc))).status = Status.ok ∧
      (disassemble (read_file (emitted bytecode pc))).stdout
        = cstr "PUSHI 5\nADD\nPUSHI 255\nDONE\n" := by
  cases h : compile_file (fun _ => 0) (cstr "PUSHI 5\n# c\n\nadd\nPUSHI -1\nDONE\n") with
  | none =>
    have hs : (compile_file (fun _ => 0)
        (cstr "PUSHI 5\n# c\n\nadd\nPUSHI -1\nDONE\n")).isSome = true := by decide
    rw [h] at hs
    cases hs
  | some r =>
    obtain ⟨bytecode, pc⟩ := r
    have hw := C3_listing (fun _ => 0) _ bytecode pc h (by decide)
    refine ⟨bytecode, pc, rfl, hw.1, ?_⟩
    rw [hw.2]
    decide

/-- C4: for every opcode value `i` below `OP_NUMBER_OF_OPS`, `opname_to_opcode`
applied to the mnemonic of the table entry `i`, in any letter case, returns `i` and
the arity of that entry; and for every name (a C string, so without NUL) it ends in
the "Unknown operation name" exit exactly when the name is the mnemonic of no
entry up to letter case. -/
theorem C4_opname_to_opcode :
    (∀ (i : Nat) (e : disinfo) (opname : List Nat), i < OP_NUMBER_OF_OPS →
        opcode_to_disinfo[i]? = some e → same_ignoring_case opname e.name →
        opname_to_opcode opname = some (i, e.num_args)) ∧
    (∀ opname : List Nat, 0 ∉ opname →
        (opname_to_opcode opname = none ↔
          ∀ e ∈ opcode_to_disinfo, ¬ same_ignoring_case opname e.name)) :=
  ⟨opname_to_opcode_of_same, opname_to_opcode_none⟩

/-- C4 at the names `pop_Res` and `popres`. -/
theorem C4_opname_to_opcode_witness :
    opname_to_opcode (cstr "pop_Res") = some (6, 0) ∧
      (opname_to_opcode (cstr "popres") = none ↔
        ∀ e ∈ opcode_to_disinfo, ¬ same_ignoring_case (cstr "popres") e.name) :=
  ⟨C4_opname_to_opcode.1 6 ⟨0, cstr "POP_RES"⟩ (cstr "pop_Res") (by decide) (by decide)
      (by decide),
    C4_opname_to_opcode.2 (cstr "popres") (by decide)⟩

/-- C5: on a buffer that holds encoded instructions (each a non-zero opcode byte
of the table followed by as many argument bytes as its arity) and then a byte 0,
`disassemble` starts at offset 0, prints for each instruction one line made of the
mnemonic of the table and of the argument bytes as non-negative decimal numbers,
moves on by 1 + arity each time, prints nothing once the byte at the offset is 0,
and returns. -/
theorem C5_disassemble (prog : List (List Nat)) (rest : List Nat)
    (hwf : ∀ ins ∈ prog, well_formed ins) :
    disassemble (prog.flatten ++ 0 :: rest) =
      { stdout := (prog.map instruction_text).flatten,
        log := program_accesses 0 prog,
        status := Status.ok } :=
  disassemble_eq prog rest hwf

/-- C5 at the buffer `PUSHI 255; DONE; 0; 9`: the byte 255 is printed as 255. -/
theorem C5_disassemble_witness :
    disassemble ([[1, 255], [7]].flatten ++ 0 :: [9]) =
      { stdout := cstr "PUSHI 255\nDONE\n",
        log := [Access.cond 0, Access.opcode 0, Access.table 1, Access.arg 1,
          Access.cond 2, Access.opcode 2, Access.table 7, Access.cond 3],
        status := Status.ok } :=
  (C5_disassemble [[1, 255], [7]] [9] (by
    intro ins hins
    simp only [List.mem_cons, List.mem_singleton, List.not_mem_nil, or_false] at hins
    rcases hins with rfl | rfl
    · exact ⟨1, [255], ⟨1, cstr "PUSHI"⟩, rfl, by decide, by decide, rfl⟩
    · exact ⟨7, [], ⟨0, cstr "DONE"⟩, rfl, by decide, by decide, rfl⟩)).trans (by decide)

/-- C6, amended: for every bytecode buffer and every index `z` of a zero byte
in it (the first one in particular), if none of the bytes `disassemble` reads as an
immediate argument is 0, then every byte it reads as an opcode or as an immediate
argument lies at an index strictly below `z`.  The test for 0 is made on opcode
positions only. -/
theorem C6_reads_below_zero (bytecode : List Nat) (z : Nat) (hz : bytecode[z]? = some 0)
    (hargs : ∀ i, Access.arg i ∈ (disassemble bytecode).log → bytecode[i]? ≠ some 0) :
    ∀ i, Access.opcode i ∈ (disassemble bytecode).log ∨
      Access.arg i ∈ (disassemble bytecode).log → i < z := by
  intro i hi
  have h := disassemble_loop_below bytecode z hz (bytecode.length + 1) 0 ⟨[], [], Status.ok⟩
    (Nat.zero_le _)
  rcases h with h | h
  · exact absurd hz (hargs z h)
  · rcases hi with hi | hi
    · rcases h _ hi with h1 | h1
      · simp at h1
      · exact h1
    · rcases h _ hi with h1 | h1
      · simp at h1
      · exact h1

/-- C6 as stated fails: in `PUSHI 0; DONE; 0` the first zero byte is at index 1,
it is read as an argument, and the byte at index 2 is read as an opcode. -/
theorem C6_counterexample :
    [1, 0, 7, 0][1]? = some 0 ∧ [1, 0, 7, 0][0]? ≠ some 0 ∧
      Access.arg 1 ∈ (disassemble [1, 0, 7, 0]).log ∧
      Access.opcode 2 ∈ (disassemble [1, 0, 7, 0]).log ∧
      (disassemble [1, 0, 7, 0]).stdout = cstr "PUSHI 0\nDONE\n" := by
  decide

/-- C6, amended, at the buffer `PUSHI 5; DONE; 0; 9`, whose first zero byte is at
index 3. -/
theorem C6_reads_below_zero_witness :
    [1, 5, 7, 0, 9][3]? = some 0 ∧
      ∀ i, Access.opcode i ∈ (disassemble [1, 5, 7, 0, 9]).log ∨
        Access.arg i ∈ (disassemble [1, 5, 7, 0, 9]).log → i < 3 :=
  ⟨by decide,
    C6_reads_below_zero [1, 5, 7, 0, 9] 3 (by decide) (by
      intro i hi
      have hl : (disassemble [1, 5, 7, 0, 9]).log =
          [Access.cond 0, Access.opcode 0, Access.table 1, Access.arg 1,
            Access.cond 2, Access.opcode 2, Access.table 7, Access.cond 3] := by decide
      rw [hl] at hi
      simp at hi
      subst hi
      decide)⟩

/-- C7, amended: for every source file the assembler accepts, the buffer holds
the instructions of the file, opcode byte then argument bytes, in source order;
`write_file` writes exactly these bytes when there is at least one, none of them is
0, and the allocation holds a 0 right behind them; and when one of them is 0 (not
the first), what is written stops before the first such byte. -/
theorem C7_write_file (heap : Nat → Nat) (file : List Nat) (bytecode : Nat → Nat) (pc : Nat)
    (h : compile_file heap file = some (bytecode, pc)) :
    emitted bytecode pc = (program file).flatten ∧
      (0 < pc → 0 ∉ emitted bytecode pc → pc < MAX_CODE_LEN → heap pc = 0 →
        write_file bytecode = some (emitted bytecode pc)) ∧
      (∀ z, 0 < z → z < pc → bytecode z = 0 → (∀ j < z, bytecode j ≠ 0) →
        write_file bytecode = some (emitted bytecode z)) := by
  obtain ⟨_, h2, h3, h4, _, h6⟩ := compile_file_spec heap file bytecode pc h
  refine ⟨h4, ?_, ?_⟩
  · intro hpos hnz hlt hheap
    apply write_file_eq bytecode pc hpos hlt
    · rw [h2, store_list_above _ _ _ _ (by omega)]
      exact hheap
    · intro j hj hj0
      exact hnz (hj0 ▸ mem_emitted bytecode pc j hj)
  · intro z hz hzpc hbz hnz
    exact write_file_eq bytecode z hz (by omega) hbz hnz

/-- C7 as stated fails: the source `PUSHI 0; DONE` is assembled to the three bytes
1, 0, 7, of which `write_file` writes the first only. -/
theorem C7_counterexample :
    (compile_file (fun _ => 0) (cstr "PUSHI 0\nDONE\n")).map
        (fun r => (emitted r.1 r.2, write_file r.1)) = some ([1, 0, 7], some [1]) := by
  decide

/-- C7, amended, at the source `PUSHI 5; DONE` in zeroed memory. -/
theorem C7_write_file_witness :
    ∃ bytecode pc,
      compile_file (fun _ => 0) (cstr "PUSHI 5\nDONE\n") = some (bytecode, pc) ∧
      emitted bytecode pc = [1, 5, 7] ∧ write_file bytecode = some [1, 5, 7] := by
  cases h : compile_file (fun _ => 0) (cstr "PUSHI 5\nDONE\n") with
  | none =>
    have hs : (compile_file (fun _ => 0) (cstr "PUSHI 5\nDONE\n")).isSome = true := by decide
    rw [h] at hs
    cases hs
  | some r =>
    obtain ⟨bytecode, pc⟩ := r
    have he : (compile_file (fun _ => 0) (cstr "PUSHI 5\nDONE\n")).map
        (fun r => (emitted r.1 r.2, r.2)) = some ([1, 5, 7], 3) := by decide
    rw [h] at he
    simp only [Option.map_some', Option.some.injEq, Prod.mk.injEq] at he
    obtain ⟨he1, he2⟩ := he
    subst he2
    have hw := (C7_write_file (fun _ => 0) _ bytecode 3 h).2.1 (by decide)
      (by rw [he1]; decide) (by decide) rfl
    exact ⟨bytecode, 3, rfl, he1, by rw [hw, he1]⟩

/-- C8, amended: for every line whose first byte is `#` or a newline (a comment
line or an empty line), `compile_line` returns `pc` and the buffer as they were and
does not fail. -/
theorem C8_skipped_line (line : List Nat) (bytecode : Nat → Nat) (pc : Nat)
    (h : line.head? = some 35 ∨ line.head? = some 10) :
    compile_line line bytecode pc = some (bytecode, pc) := by
  unfold compile_line
  rw [if_pos h]

/-- C8 as stated fails: the line made of one space and a newline holds white
space only, and `compile_line` ends in `exit(EXIT_FAILURE)` on it; so it does on a
tab followed by a newline and on a line of spaces the file ends with. -/
theorem C8_counterexample :
    (is_blank (cstr " \n") ∧ compile_line (cstr " \n") (fun _ => 0) 0 = none) ∧
      (is_blank (cstr "\t\n") ∧ compile_line (cstr "\t\n") (fun _ => 0) 0 = none) ∧
      (is_blank (cstr "  ") ∧ compile_line (cstr "  ") (fun _ => 0) 0 = none) :=
  ⟨⟨by decide, Option.isNone_iff_eq_none.1 (by decide)⟩,
    ⟨by decide, Option.isNone_iff_eq_none.1 (by decide)⟩,
    ⟨by decide, Option.isNone_iff_eq_none.1 (by decide)⟩⟩

/-- C8, amended, at a comment line and at the empty line. -/
theorem C8_skipped_line_witness :
    compile_line (cstr "# PUSHI 1\n") (fun _ => 7) 3 = some ((fun _ => 7), 3) ∧
      compile_line (cstr "\n") (fun _ => 7) 3 = some ((fun _ => 7), 3) :=
  ⟨C8_skipped_line _ _ _ (by decide), C8_skipped_line _ _ _ (by decide)⟩

/-- C9: whatever the engine, `run` returns a non-zero status exactly when the
outcome of `vm_interpret` is not `SUCCESS`; for each of the three other outcomes
it returns `EXIT_FAILURE`, prints nothing, and writes to the standard error the
message of that outcome: "division by zero" for `ERROR_DIVISION_BY_ZERO`, "unknown
opcode" for `ERROR_UNKNOWN_OPCODE`, "end of stream" for `ERROR_END_OF_STREAM`; when
the outcome is `SUCCESS` it prints the value `vm_get_result` returns, writes
nothing to the standard error, and returns `EXIT_SUCCESS`. -/
theorem C9_run (vm_interpret : List Nat → interpret_result) (vm_get_result : List Nat → Nat)
    (bytecode : List Nat) :
    ((run vm_interpret vm_get_result bytecode).status ≠ 0 ↔
        vm_interpret bytecode ≠ interpret_result.SUCCESS) ∧
      (vm_interpret bytecode = interpret_result.ERROR_DIVISION_BY_ZERO →
        run vm_interpret vm_get_result bytecode =
          ⟨1, [], cstr "Runtime error: division by zero\n"⟩) ∧
      (vm_interpret bytecode = interpret_result.ERROR_UNKNOWN_OPCODE →
        run vm_interpret vm_get_result bytecode =
          ⟨1, [], cstr "Runtime error: unknown opcode\n"⟩) ∧
      (vm_interpret bytecode = interpret_result.ERROR_END_OF_STREAM →
        run vm_interpret vm_get_result bytecode =
          ⟨1, [], cstr "Runtime error: end of stream\n"⟩) ∧
      (vm_interpret bytecode = interpret_result.SUCCESS →
        run vm_interpret vm_get_result bytecode =
          ⟨0, cstr "Result value: " ++ print_d (vm_get_result bytecode) ++ [10], []⟩) := by
  unfold run
  cases h : vm_interpret bytecode
  · simp [EXIT_SUCCESS]
  · simp only [ne_eq, reduceCtorEq, not_false_eq_true, if_true, EXIT_FAILURE, error_to_msg]
    refine ⟨trivial, ?_, ?_, ?_, ?_⟩ <;> intro hh <;> first | exact hh.elim | decide
  · simp only [ne_eq, reduceCtorEq, not_false_eq_true, if_true, EXIT_FAILURE, error_to_msg]
    refine ⟨trivial, ?_, ?_, ?_, ?_⟩ <;> intro hh <;> first | exact hh.elim | decide
  · simp only [ne_eq, reduceCtorEq, not_false_eq_true, if_true, EXIT_FAILURE, error_to_msg]
    refine ⟨trivial, ?_, ?_, ?_, ?_⟩ <;> intro hh <;> first | exact hh.elim | decide

/-- C9 at an engine for each outcome: the three messages, and the results 42 and
18446744073709551615. -/
theorem C9_run_witness :
    run (fun _ => interpret_result.ERROR_DIVISION_BY_ZERO) (fun _ => 0) [4, 0]
        = ⟨1, [], cstr "Runtime error: division by zero\n"⟩ ∧
      run (fun _ => interpret_result.ERROR_UNKNOWN_OPCODE) (fun _ => 0) [255, 0]
        = ⟨1, [], cstr "Runtime error: unknown opcode\n"⟩ ∧
      run (fun _ => interpret_result.ERROR_END_OF_STREAM) (fun _ => 0) [0]
        = ⟨1, [], cstr "Runtime error: end of stream\n"⟩ ∧
      run (fun _ => interpret_result.SUCCESS) (fun _ => 42) [7, 0]
        = ⟨0, cstr "Result value: 42\n", []⟩ ∧
      run (fun _ => interpret_result.SUCCESS) (fun _ => 18446744073709551615) [7, 0]
        = ⟨0, cstr "Result value: 18446744073709551615\n", []⟩ :=
  ⟨(C9_run (fun _ => interpret_result.ERROR_DIVISION_BY_ZERO) (fun _ => 0) [4, 0]).2.1 rfl,
    (C9_run (fun _ => interpret_result.ERROR_UNKNOWN_OPCODE) (fun _ => 0) [255, 0]).2.2.1 rfl,
    (C9_run (fun _ => interpret_result.ERROR_END_OF_STREAM) (fun _ => 0) [0]).2.2.2.1 rfl,
    ((C9_run (fun _ => interpret_result.SUCCESS) (fun _ => 42) [7, 0]).2.2.2.2 rfl).trans
      (by decide),
    ((C9_run (fun _ => interpret_result.SUCCESS) (fun _ => 18446744073709551615)
      [7, 0]).2.2.2.2 rfl).trans (by decide)⟩

/-- C10: for every source program the assembler accepts whose emitted bytes hold
no byte 0, `disassemble` applied to those bytes followed by one zero byte returns
(it neither runs on nor leaves the defined behaviour), reads the buffer at indices
inside it only, indexes the opcode table with values below `OP_NUMBER_OF_OPS` only,
and prints exactly one line for each instruction line assembled. -/
theorem C10_disassemble_safe (heap : Nat → Nat) (file : List Nat) (bytecode : Nat → Nat)
    (pc : Nat) (h : compile_file heap file = some (bytecode, pc))
    (hz : 0 ∉ emitted bytecode pc) :
    (disassemble (emitted bytecode pc ++ [0])).status = Status.ok ∧
      (∀ a ∈ (disassemble (emitted bytecode pc ++ [0])).log,
        in_bounds (emitted bytecode pc ++ [0]).length a) ∧
      (disassemble (emitted bytecode pc ++ [0])).stdout.count 10 =
        (instruction_lines file).length := by
  obtain ⟨_, _, _, h4, h5, _⟩ := compile_file_spec heap file bytecode pc h
  rw [h4] at hz ⊢
  have hsp : ∀ ins ∈ program file, ∃ op args e, ins = op :: args ∧ op < OP_NUMBER_OF_OPS ∧
      opcode_to_disinfo[op]? = some e ∧ args.length = e.num_args ∧ ∀ a ∈ args, a < 256 := by
    intro ins hins
    obtain ⟨l, _, hl⟩ := program_spec file ins hins
    exact instruction_bytes_spec l ins hl
  have hwf : ∀ ins ∈ program file, well_formed ins := by
    intro ins hins
    obtain ⟨op, args, e, rfl, _, he, hlen, _⟩ := hsp ins hins
    refine ⟨op, args, e, rfl, ?_, he, hlen⟩
    intro h0
    subst h0
    exact hz (List.mem_flatten.2 ⟨_, hins, List.mem_cons_self _ _⟩)
  rw [disassemble_eq (program file) [] hwf]
  refine ⟨rfl, ?_, ?_⟩
  · intro a ha
    have := program_accesses_in_bounds (program file) 0
      (fun ins hins => by
        obtain ⟨op, args, e, rfl, hop, _⟩ := hsp ins hins
        exact ⟨op, args, rfl, hop⟩) a ha
    simpa using this
  · simp only
    rw [count_program_text _ (fun ins hins => by
        obtain ⟨op, args, e, rfl, _, he, _, hb⟩ := hsp ins hins
        exact ⟨op, args, e, rfl, he, hb⟩), h5]

/-- C10 at the source `PUSHI 5; add; DONE` with a comment and an empty line. -/
theorem C10_disassemble_safe_witness :
    ∃ bytecode pc,
      compile_file (fun _ => 0) (cstr "PUSHI 5\n# c\n\nadd\nDONE\n") = some (bytecode, pc) ∧
      0 ∉ emitted bytecode pc ∧
      (disassemble (emitted bytecode pc ++ [0])).status = Status.ok ∧
      (∀ a ∈ (disassemble (emitted bytecode pc ++ [0])).log,
        in_bounds (emitted bytecode pc ++ [0]).length a) ∧
      (disassemble (emitted bytecode pc ++ [0])).stdout.count 10 = 3 := by
  cases h : compile_file (fun _ => 0) (cstr "PUSHI 5\n# c\n\nadd\nDONE\n") with
  | none =>
    have hs : (compile_file (fun _ => 0)
        (cstr "PUSHI 5\n# c\n\nadd\nDONE\n")).isSome = true := by decide
    rw [h] at hs
    cases hs
  | some r =>
    obtain ⟨bytecode, pc⟩ := r
    have he : (compile_file (fun _ => 0) (cstr "PUSHI 5\n# c\n\nadd\nDONE\n")).map
        (fun r => emitted r.1 r.2) = some [1, 5, 2, 7] := by decide
    rw [h] at he
    simp only [Option.map_some', Option.some.injEq] at he
    have hz : 0 ∉ emitted bytecode pc := by rw [he]; decide
    have hw := C10_disassemble_safe (fun _ => 0) _ bytecode pc h hz
    exact ⟨bytecode, pc, rfl, hz, hw.1, hw.2.1, hw.2.2.trans (by decide)⟩

end PigletVM
